import Mathlib

/-!
Verification of setQuery (src/lib/setQuery.js).

A shallow embedding of `setQuery`: the normalizer that builds `localQuery`, the
merger fold that builds `newQueryObject`, the serializer that builds
`newQueryString`, and the construction of the address handed to
`window.history.pushState`.

Conventions of the embedding:

* JavaScript strings are Lean strings (sequences of code points, so well-formed
  UTF-16 only: a string with a lone surrogate, on which `encodeURIComponent`
  throws `URIError`, has no counterpart here); numbers are the integers that
  JavaScript holds exactly and prints in plain decimal digits.
* A plain object is the list of its own enumerable string-keyed properties in
  `Object.entries` order: array-index keys in ascending numeric order first,
  then the other keys in creation order.
* The ambient state read by the function is passed in: `href` is
  `window.location.href`, and `getQuery` is the object returned by the
  collaborator `getQuery()`.
* A thrown exception is the result `none`.
-/

namespace SetQuery

/-! ## Values -/

/-- JavaScript values that occur as query field values: primitives and
(arbitrarily nested) arrays of them. -/
inductive JSVal where
  | undefined : JSVal
  | null : JSVal
  | bool (b : Bool) : JSVal
  | num (n : Int) : JSVal
  | str (s : String) : JSVal
  | arr (xs : List JSVal) : JSVal

/-- A plain object, as its own properties in `Object.entries` order. -/
abbrev Obj := List (String × JSVal)

/-- JavaScript `ToBoolean`: `value ? a : b` takes `a` exactly when this is true. -/
def truthy : JSVal → Bool
  | .undefined => false
  | .null => false
  | .bool b => b
  | .num n => n != 0
  | .str s => s != ""
  | .arr _ => true

/-- `Array.prototype.join`, on an array whose elements are already strings. -/
def jsJoin (sep : String) : List String → String
  | [] => ""
  | [a] => a
  | a :: b :: rest => a ++ sep ++ jsJoin sep (b :: rest)

mutual
/-- JavaScript `String(value)` (`ToString`); an array is its elements joined by
commas, where `null` and `undefined` elements give the empty string. A number is
written in decimal digits, as JavaScript does for the integers it holds exactly
(magnitude below `2^53`); no statement below depends on the digits. -/
def toStr : JSVal → String
  | .undefined => "undefined"
  | .null => "null"
  | .bool true => "true"
  | .bool false => "false"
  | .num n => toString n
  | .str s => s
  | .arr xs => jsJoin "," (elemStrs xs)
/-- The strings joined by `Array.prototype.toString`. -/
def elemStrs : List JSVal → List String
  | [] => []
  | .undefined :: xs => "" :: elemStrs xs
  | .null :: xs => "" :: elemStrs xs
  | .bool b :: xs => toStr (.bool b) :: elemStrs xs
  | .num n :: xs => toStr (.num n) :: elemStrs xs
  | .str s :: xs => toStr (.str s) :: elemStrs xs
  | .arr ys :: xs => toStr (.arr ys) :: elemStrs xs
end

/-- The `===` operator. Two array values are separately allocated objects, so
they are never identical. -/
def strictEq : JSVal → JSVal → Bool
  | .undefined, .undefined => true
  | .null, .null => true
  | .bool a, .bool b => a == b
  | .num a, .num b => a == b
  | .str a, .str b => a == b
  | _, _ => false

/-- Spread `[...value]`: the elements of an array, the code points of a string;
any other value is not iterable and the spread throws a `TypeError`. -/
def spread : JSVal → Option (List JSVal)
  | .arr xs => some xs
  | .str s => some (s.data.map fun c => JSVal.str (String.singleton c))
  | _ => none

/-! ## Collaborators imported by setQuery.js -/

/-- Modelled from the spec: `isArray` (imported from `./isArray`, not in the
sources) is the array predicate that distinguishes sequence values from
scalars. -/
def isArray : JSVal → Bool
  | .arr _ => true
  | _ => false

/-- Modelled from the spec: `isEmpty` (imported from `./isEmpty`, not in the
sources) is the emptiness check on a map. -/
def isEmpty (o : Obj) : Bool := o.isEmpty

mutual
/-- The leaves of one value: an array contributes the leaves of its elements. -/
def flattenVal : JSVal → List JSVal
  | .arr xs => flattenDeep xs
  | .undefined => [.undefined]
  | .null => [.null]
  | .bool b => [.bool b]
  | .num n => [.num n]
  | .str s => [.str s]
/-- Modelled from the spec: `flattenDeep` (imported from `./flattenDeep`, not in
the sources) fully flattens arbitrarily nested sequences into one ordered
sequence. -/
def flattenDeep : List JSVal → List JSVal
  | [] => []
  | x :: xs => flattenVal x ++ flattenDeep xs
end

/-- The pass of `uniq` over the rest of a sequence, given the elements already
kept. -/
def uniqFrom (seen : List JSVal) : List JSVal → List JSVal
  | [] => []
  | x :: xs =>
    if seen.any (strictEq x) then uniqFrom seen xs else x :: uniqFrom (seen ++ [x]) xs

/-- Modelled from the spec: `uniq` (imported from `./uniq`, not in the sources)
removes later duplicates from a sequence, preserving first-occurrence order. -/
def uniq (seq : List JSVal) : List JSVal := uniqFrom [] seq

/-! ## Objects -/

/-- The decimal value of a digit string read left to right. -/
def digitsValue (cs : List Char) : Nat :=
  cs.foldl (fun n c => 10 * n + (c.toNat - 48)) 0

/-- The array index a property key denotes, if it is one: a canonical decimal
numeral (no leading zero) of a number below `2^32 - 1`. -/
def arrayIndex (key : String) : Option Nat :=
  match key.data with
  | [] => none
  | c :: cs =>
    if (c :: cs).all Char.isDigit && (c != '0' || cs.isEmpty)
        && digitsValue (c :: cs) < 4294967295 then
      some (digitsValue (c :: cs))
    else none

/-- Own-property order: `keyBefore a b` when a newly created key `a` is listed
before an existing key `b`, that is when `a` is an array index and `b` is a
larger array index or not an array index. -/
def keyBefore (a b : String) : Bool :=
  match arrayIndex a, arrayIndex b with
  | some m, some n => m < n
  | some _, none => true
  | none, _ => false

/-- The property lists that are objects: keys are distinct and listed in
own-property order. -/
def IsObject (o : Obj) : Prop :=
  o.Pairwise fun p q => p.1 ≠ q.1 ∧ keyBefore q.1 p.1 = false

instance (o : Obj) : Decidable (IsObject o) := by
  unfold IsObject; infer_instance

/-- `Object.keys(o)`. -/
def keys (o : Obj) : List String := o.map Prod.fst

/-- `hasOwnProperty.call(o, key)`. -/
def hasOwn (o : Obj) (key : String) : Bool := o.any fun p => p.1 == key

/-- Property read `o[key]` on a plain object. -/
def getProp (o : Obj) (key : String) : JSVal := (o.lookup key).getD .undefined

/-- Overwrite the value of an existing property, keeping its position. -/
def replaceProp (key : String) (v : JSVal) : Obj → Obj
  | [] => []
  | p :: rest => if p.1 = key then (key, v) :: rest else p :: replaceProp key v rest

/-- Create a property that does not exist yet, at its place in own-property
order. -/
def insertProp (key : String) (v : JSVal) : Obj → Obj
  | [] => [(key, v)]
  | p :: rest =>
    if keyBefore key p.1 then (key, v) :: p :: rest else p :: insertProp key v rest

/-- The object literal `{ ...o, [key]: v }`. -/
def setProp (o : Obj) (key : String) (v : JSVal) : Obj :=
  if hasOwn o key then replaceProp key v o else insertProp key v o

/-! ## Strings -/

/-- The characters `encodeURIComponent` leaves as they are:
`A-Z a-z 0-9 - _ . ! ~ * ' ( )`. -/
def uriUnreserved (c : Char) : Bool :=
  c.isAlphanum || [ '-', '_', '.', '!', '~', '*', Char.ofNat 39, '(', ')' ].contains c

/-- The upper-case hexadecimal digit of a number below 16. -/
def hexDigit (n : Nat) : Char :=
  "0123456789ABCDEF".data.getD (n % 16) '0'

/-- The UTF-8 encoding of a code point, as bytes. -/
def utf8Bytes (c : Char) : List Nat :=
  let n := c.toNat
  if n < 128 then [n]
  else if n < 2048 then [192 + n / 64, 128 + n % 64]
  else if n < 65536 then [224 + n / 4096, 128 + n / 64 % 64, 128 + n % 64]
  else [240 + n / 262144, 128 + n / 4096 % 64, 128 + n / 64 % 64, 128 + n % 64]

/-- The escape `%XX` of one byte. -/
def percentByte (b : Nat) : List Char := ['%', hexDigit (b / 16), hexDigit b]

/-- What `encodeURIComponent` writes for one code point. -/
def encodeChar (c : Char) : List Char :=
  if uriUnreserved c then [c] else (utf8Bytes c).flatMap percentByte

/-- JavaScript `encodeURIComponent` on a well-formed string. The builtin throws
`URIError` on a string with a lone surrogate; such strings are outside the
strings of this embedding, so that failure is not represented. -/
def encodeURIComponent (s : String) : String :=
  String.mk (s.data.flatMap encodeChar)

/-- The pieces of a character sequence between the occurrences of `sep`. -/
def splitChars (sep : Char) : List Char → List (List Char)
  | [] => [[]]
  | c :: cs =>
    if c = sep then [] :: splitChars sep cs
    else
      match splitChars sep cs with
      | [] => [[c]]
      | piece :: pieces => (c :: piece) :: pieces

/-- `s.split(sep)` for a one-character separator. -/
def jsSplit (s : String) (sep : Char) : List String :=
  (splitChars sep s.data).map String.mk

/-! ## setQuery -/

/-- The options object of `setQuery`; an absent option is `none`. -/
structure Params where
  isSaveOld : Option Bool
  isSaveHash : Option Bool
  isSaveEmptyFields : Option Bool

/-- The second argument of a call of `setQuery`: left out (`undefined`), `null`,
or an options object. -/
inductive ParamsArg where
  | omitted : ParamsArg
  | null : ParamsArg
  | object (p : Params) : ParamsArg

/-- The value of an array-valued field after normalization (lines 42-44):
`uniq(flattenDeep(field[1]).map((value) => String(value)))`; any other value is
kept. -/
def normalizeValue (v : JSVal) : JSVal :=
  if isArray v then
    match v with
    | .arr xs => .arr (uniq ((flattenDeep xs).map fun value => JSVal.str (toStr value)))
    | other => other
  else v

/-- The normalizer, `localQuery` (lines 39-48): a fold over
`Object.entries(query)` from the empty object; a null or absent query gives the
empty object. -/
def localQuery (query : Option Obj) : Obj :=
  match query with
  | some q => q.foldl (fun acc field => setProp acc field.1 (normalizeValue field.2)) []
  | none => []

/-- The value the combine branch of the merger stores (lines 60-68).
`textValue`, `arrayValue` and `newValue` are evaluated in this order, and a
spread of a value that is not iterable throws. -/
def combineValue (current fieldValue : JSVal) : Option JSVal :=
  let textValue :=
    if strictEq current fieldValue then fieldValue else JSVal.arr [current, fieldValue]
  (if isArray current then
      (spread current).bind fun a => (spread fieldValue).bind fun b =>
        some (JSVal.arr (uniq (a ++ b)))
    else some textValue).bind fun arrayValue =>
  if isArray fieldValue then
    (spread fieldValue).bind fun a => (spread current).bind fun b =>
      some (JSVal.arr (uniq (a ++ b)))
  else some arrayValue

/-- One step of the merger fold (lines 53-84). -/
def mergeStep (oldQuery : Obj) (newQuery : Obj) (field : String × JSVal) : Option Obj :=
  let fieldName := field.1
  let fieldValue := field.2
  let isFieldExistInNewQuery := hasOwn newQuery fieldName
  let isFieldExistInOldQuery := hasOwn oldQuery fieldName
  if isFieldExistInNewQuery && !isFieldExistInOldQuery then
    (combineValue (getProp newQuery fieldName) fieldValue).bind fun newValue =>
      some (setProp newQuery fieldName newValue)
  else if isFieldExistInNewQuery && isFieldExistInOldQuery then
    some newQuery
  else
    some (setProp newQuery fieldName fieldValue)

/-- The merger, `newQueryObject` (lines 49-85), from the normalized input and
the object `getQuery()` returns. -/
def newQueryObject (isSaveOld : Bool) (getQuery : Obj) (localQ : Obj) : Option Obj :=
  if isSaveOld && !isEmpty getQuery then
    (localQ ++ getQuery).foldlM (mergeStep getQuery) []
  else some localQ

/-- The text `encodeURIComponent(key)=encodeURIComponent(value)`. -/
def pairText (key : String) (value : JSVal) : String :=
  encodeURIComponent key ++ "=" ++ encodeURIComponent (toStr value)

/-- The pair written for a key and one value under the empty-field policy
(lines 93-101 and 105-109); the empty string when none is written. -/
def fieldText (isSaveEmptyFields : Bool) (key : String) (value : JSVal) : String :=
  if isSaveEmptyFields then
    if key != "" then pairText key value else ""
  else
    if key != "" && truthy value then pairText key value else ""

/-- The callback of `Object.keys(newQueryObject).map` (lines 87-114). -/
def queryItem (isSaveEmptyFields : Bool) (newQ : Obj) (key : String) : String :=
  if key == "&" then ""
  else
    let value := getProp newQ key
    let fieldValue := fieldText isSaveEmptyFields key value
    match value with
    | .arr xs =>
      jsJoin "&" (((xs.map fun arrayValue => fieldText isSaveEmptyFields key arrayValue).filter
        fun queryItem => queryItem != ""))
    | _ => fieldValue

/-- The serializer, `newQueryString` (lines 86-116). -/
def newQueryString (isSaveEmptyFields : Bool) (newQ : Obj) : String :=
  jsJoin "&" ((((keys newQ).map (queryItem isSaveEmptyFields newQ)).filter
    fun queryItem => queryItem != ""))

/-- The constant `hash` (line 51): `isSaveHash && href.split('#')[1]`. -/
def hash (isSaveHash : Bool) (href : String) : JSVal :=
  if isSaveHash then
    match (jsSplit href '#')[1]? with
    | some piece => .str piece
    | none => .undefined
  else .bool false

/-- The text appended for the hash: `hash ? '#' + hash : ''`. -/
def hashText (h : JSVal) : String :=
  if truthy h then "#" ++ toStr h else ""

/-- The expression `href.split('?')[0].split('#')[0]` (line 123); `split` always
returns at least one piece. -/
def barePath (href : String) : String :=
  (jsSplit ((jsSplit href '?').headD "") '#').headD ""

/-- The third argument of `pushState` (lines 121-123). -/
def pushedUrl (href : String) (queryString : String) (h : JSVal) : String :=
  if queryString != "" then "?" ++ queryString ++ hashText h
  else barePath href ++ hashText h

/-- The body of `setQuery` once the options are destructured: the address it
hands to `window.history.pushState`, or `none` when it throws. -/
def setQueryWith (href : String) (getQuery : Obj) (query : Option Obj)
    (isSaveOld isSaveHash isSaveEmptyFields : Bool) : Option String :=
  (newQueryObject isSaveOld getQuery (localQuery query)).bind fun newQ =>
    some (pushedUrl href (newQueryString isSaveEmptyFields newQ) (hash isSaveHash href))

/-- The destructuring of the options object in the parameter list (lines 33-35):
absent options take the defaults written there. -/
def destructured (href : String) (getQuery : Obj) (query : Option Obj) (p : Params) :
    Option String :=
  setQueryWith href getQuery query (p.isSaveOld.getD true) (p.isSaveHash.getD true)
    (p.isSaveEmptyFields.getD false)

/-- The function `setQuery(query, params)` (lines 32-36). The default `= {}` of
line 36 stands in for a `params` that is left out (`undefined`) only; destructuring
`null` throws a `TypeError`. -/
def setQuery (href : String) (getQuery : Obj) (query : Option Obj)
    (params : ParamsArg) : Option String :=
  match params with
  | .omitted => destructured href getQuery query ⟨none, none, none⟩
  | .null => none
  | .object p => destructured href getQuery query p

/-! ## Derived descriptions used in the statements -/

/-- What a fold step does with an entry of the old query: a key the accumulator
already has is left alone, any other key is created. -/
def absorbOld (acc : Obj) (field : String × JSVal) : Obj :=
  if hasOwn acc field.1 then acc else setProp acc field.1 field.2

/-- The spec's wording of deduplication on strings: keep the first occurrence of
each string, in order, and drop the later ones. -/
def firstOccurrences : List String → List String
  | [] => []
  | s :: rest => s :: (firstOccurrences rest).filter fun t => t != s

/-- The spec's wording of the normalizer on one value: an array becomes the
first occurrences of the string forms of its flattened leaves, any other value
is itself. -/
def specNormalized : JSVal → JSVal
  | .arr xs => .arr ((firstOccurrences ((flattenDeep xs).map toStr)).map JSVal.str)
  | .undefined => .undefined
  | .null => .null
  | .bool b => .bool b
  | .num n => .num n
  | .str s => .str s

/-- The text one entry of the merged query contributes: the serializer's
callback once `value` has been read from the object. -/
def itemText (isSaveEmptyFields : Bool) (key : String) (value : JSVal) : String :=
  if key == "&" then ""
  else
    match value with
    | .arr xs =>
      jsJoin "&" (((xs.map fun arrayValue => fieldText isSaveEmptyFields key arrayValue).filter
        fun queryItem => queryItem != ""))
    | _ => fieldText isSaveEmptyFields key value

/-- The texts that survive the serializer's filter, for a list of entries. -/
def survivingItems (isSaveEmptyFields : Bool) (entries : Obj) : List String :=
  (entries.map fun p => itemText isSaveEmptyFields p.1 p.2).filter fun queryItem =>
    queryItem != ""

/-- The spec's fragment of an address: the whole portion after its first `#`. -/
def fragmentOf (href : String) : String :=
  String.mk ((href.data.dropWhile fun c => c != '#').drop 1)

/-- An address truncated before its first `?` or `#`. -/
def beforeQueryOrHash (href : String) : String :=
  String.mk (href.data.takeWhile fun c => c != '?' && c != '#')

/-- The fragment a call preserves, if any: with `isSaveHash` true and an address
that contains `#`, the text between its first `#` and the next `#` (or the end
of the address). -/
def preservedFragment (isSaveHash : Bool) (href : String) : Option String :=
  if isSaveHash && href.data.contains '#' then
    some (String.mk (((href.data.dropWhile fun c => c != '#').drop 1).takeWhile
      fun c => c != '#'))
  else none

/-- The merged query the merger returns on a normalized input. -/
def mergedQuery (isSaveOld : Bool) (old : Obj) (localQ : Obj) : Obj :=
  if isSaveOld && !isEmpty old then old.foldl absorbOld localQ else localQ

/-- The address after `pushState(state, title, url)`: a url that starts with `?`
replaces the query and the fragment of the current href, any other url is the
new href. -/
def addressAfter (href url : String) : String :=
  if url.data.head? = some '?' then beforeQueryOrHash href ++ url else url

/-- The parameters of a query string: its `&`-separated segments; the empty
query string has none. -/
def querySegments (s : String) : List String :=
  if s = "" then [] else jsSplit s '&'

/-- The pair texts one entry of the merged query leaves in the output: one per
surviving (key, element) pair of an array value, at most one for a scalar. -/
def pairsOf (isSaveEmptyFields : Bool) (key : String) (value : JSVal) : List String :=
  if key == "&" then []
  else
    match value with
    | .arr xs =>
      (xs.map fun arrayValue => fieldText isSaveEmptyFields key arrayValue).filter
        fun queryItem => queryItem != ""
    | _ => [fieldText isSaveEmptyFields key value].filter fun queryItem => queryItem != ""

/-- The surviving (key, element) pairs of a merged query, in output order. -/
def survivingPairs (isSaveEmptyFields : Bool) (entries : Obj) : List String :=
  (entries.map fun p => pairsOf isSaveEmptyFields p.1 p.2).flatten

/-! ## Objects: basic facts -/

theorem hasOwn_iff (o : Obj) (key : String) : hasOwn o key = true ↔ key ∈ keys o := by
  induction o with
  | nil => simp [hasOwn, keys]
  | cons p rest ih =>
    simp only [hasOwn, keys, List.any_cons, List.map_cons, List.mem_cons, Bool.or_eq_true,
      beq_iff_eq] at ih ⊢
    rw [ih]
    constructor
    · rintro (h | h)
      · exact Or.inl h.symm
      · exact Or.inr h
    · rintro (h | h)
      · exact Or.inl h.symm
      · exact Or.inr h

theorem keys_replaceProp (key : String) (v : JSVal) (o : Obj) :
    keys (replaceProp key v o) = keys o := by
  induction o with
  | nil => rfl
  | cons p rest ih =>
    unfold replaceProp
    split
    · next h => simp [keys, h]
    · simp only [keys, List.map_cons] at ih ⊢
      rw [ih]

theorem getProp_cons (p : String × JSVal) (rest : Obj) (key : String) :
    getProp (p :: rest) key = if key = p.1 then p.2 else getProp rest key := by
  obtain ⟨k, v⟩ := p
  unfold getProp
  by_cases h : key = k
  · subst h
    simp [List.lookup]
  · have h2 : (key == k) = false := by simpa using h
    simp [List.lookup, h2, h]

theorem getProp_of_not_mem (o : Obj) (key : String) (h : key ∉ keys o) :
    getProp o key = .undefined := by
  induction o with
  | nil => rfl
  | cons p rest ih =>
    simp only [keys, List.map_cons, List.mem_cons, not_or] at h
    rw [getProp_cons, if_neg h.1]
    exact ih h.2

theorem getProp_replaceProp (o : Obj) (key : String) (v : JSVal) (k : String)
    (h : key ∈ keys o) :
    getProp (replaceProp key v o) k = if k = key then v else getProp o k := by
  induction o with
  | nil => simp [keys] at h
  | cons p rest ih =>
    unfold replaceProp
    by_cases hp : p.1 = key
    · rw [if_pos hp, getProp_cons, getProp_cons]
      by_cases hk : k = key
      · simp [hk]
      · have : ¬ k = p.1 := by rw [hp]; exact hk
        simp [hk, this]
    · rw [if_neg hp, getProp_cons, getProp_cons]
      have hmem : key ∈ keys rest := by
        simp only [keys, List.map_cons, List.mem_cons] at h
        rcases h with h | h
        · exact absurd h.symm hp
        · exact h
      rw [ih hmem]
      by_cases hk : k = key
      · subst hk
        have : ¬ k = p.1 := fun e => hp e.symm
        simp [this]
      · simp [hk]

theorem getProp_insertProp (o : Obj) (key : String) (v : JSVal) (k : String)
    (h : key ∉ keys o) :
    getProp (insertProp key v o) k = if k = key then v else getProp o k := by
  induction o with
  | nil => simp [insertProp, getProp_cons]
  | cons p rest ih =>
    simp only [keys, List.map_cons, List.mem_cons, not_or] at h
    unfold insertProp
    split
    · rw [getProp_cons]
    · rw [getProp_cons, getProp_cons, ih h.2]
      by_cases hk : k = key
      · subst hk
        simp [h.1]
      · simp [hk]

theorem getProp_setProp (o : Obj) (key : String) (v : JSVal) (k : String) :
    getProp (setProp o key v) k = if k = key then v else getProp o k := by
  unfold setProp
  split
  · next h => exact getProp_replaceProp o key v k ((hasOwn_iff o key).1 h)
  · next h => exact getProp_insertProp o key v k (fun hm => h ((hasOwn_iff o key).2 hm))

theorem mem_keys_insertProp (o : Obj) (key : String) (v : JSVal) (k : String) :
    k ∈ keys (insertProp key v o) ↔ k = key ∨ k ∈ keys o := by
  induction o with
  | nil => simp [insertProp, keys]
  | cons p rest ih =>
    unfold insertProp
    split
    · simp [keys]
    · simp only [keys, List.map_cons, List.mem_cons] at ih ⊢
      rw [ih]
      tauto

theorem mem_keys_setProp (o : Obj) (key : String) (v : JSVal) (k : String) :
    k ∈ keys (setProp o key v) ↔ k = key ∨ k ∈ keys o := by
  unfold setProp
  split
  · next h =>
    rw [keys_replaceProp]
    constructor
    · exact Or.inr
    · rintro (h1 | h1)
      · rw [h1]; exact (hasOwn_iff o key).1 h
      · exact h1
  · exact mem_keys_insertProp o key v k

/-! ## Own-property order -/

theorem keyBefore_asymm (a b : String) (h : keyBefore a b = true) : keyBefore b a = false := by
  unfold keyBefore at h ⊢
  cases ha : arrayIndex a <;> cases hb : arrayIndex b <;> simp [ha, hb] at h ⊢
  omega

theorem keyBefore_trans (a b c : String) (hab : keyBefore a b = true)
    (hbc : keyBefore b c = true) : keyBefore a c = true := by
  unfold keyBefore at hab hbc ⊢
  cases ha : arrayIndex a <;> cases hb : arrayIndex b <;> cases hc : arrayIndex c <;>
    simp [ha, hb, hc] at hab hbc ⊢
  omega

theorem isObject_iff_keys (o : Obj) :
    IsObject o ↔ (keys o).Pairwise fun a b => a ≠ b ∧ keyBefore b a = false := by
  unfold IsObject keys
  rw [List.pairwise_map]

theorem IsObject.nodup_keys {o : Obj} (h : IsObject o) : (keys o).Nodup := by
  rw [isObject_iff_keys] at h
  exact h.imp fun hab => hab.1

theorem isObject_replaceProp (o : Obj) (key : String) (v : JSVal) (h : IsObject o) :
    IsObject (replaceProp key v o) := by
  rw [isObject_iff_keys] at h ⊢
  rw [keys_replaceProp]
  exact h

theorem isObject_insertProp (o : Obj) (key : String) (v : JSVal) (h : IsObject o)
    (hk : key ∉ keys o) : IsObject (insertProp key v o) := by
  induction o with
  | nil => simp [insertProp, IsObject]
  | cons p rest ih =>
    have hcons := h
    unfold IsObject at h
    rw [List.pairwise_cons] at h
    simp only [keys, List.map_cons, List.mem_cons, not_or] at hk
    unfold insertProp
    by_cases hb : keyBefore key p.1 = true
    · rw [if_pos hb]
      unfold IsObject
      rw [List.pairwise_cons]
      refine ⟨?_, hcons⟩
      intro q hq
      rw [List.mem_cons] at hq
      rcases hq with hq | hq
      · subst hq
        exact ⟨hk.1, keyBefore_asymm _ _ hb⟩
      · refine ⟨fun e => hk.2 ?_, ?_⟩
        · have e2 : key = q.1 := e
          rw [e2]
          exact List.mem_map_of_mem Prod.fst hq
        cases hqk : keyBefore q.1 key with
        | false => rfl
        | true =>
          have := keyBefore_trans _ _ _ hqk hb
          rw [(h.1 q hq).2] at this
          exact absurd this (by simp)
    · rw [if_neg hb]
      unfold IsObject
      rw [List.pairwise_cons]
      refine ⟨?_, ih h.2 hk.2⟩
      intro q hq
      have hq2 : q.1 ∈ keys (insertProp key v rest) := List.mem_map_of_mem Prod.fst hq
      rw [mem_keys_insertProp] at hq2
      rcases hq2 with hq2 | hq2
      · rw [hq2]
        exact ⟨fun e => hk.1 e.symm, by simpa using hb⟩
      · obtain ⟨q2, hq2mem, hq2eq⟩ := List.mem_map.1 hq2
        rw [← hq2eq]
        exact h.1 q2 hq2mem

theorem isObject_setProp (o : Obj) (key : String) (v : JSVal) (h : IsObject o) :
    IsObject (setProp o key v) := by
  unfold setProp
  split
  · exact isObject_replaceProp o key v h
  · next hn => exact isObject_insertProp o key v h (fun hm => hn ((hasOwn_iff o key).2 hm))

theorem insertProp_eq_append (o : Obj) (key : String) (v : JSVal)
    (h : ∀ p ∈ o, keyBefore key p.1 = false) : insertProp key v o = o ++ [(key, v)] := by
  induction o with
  | nil => rfl
  | cons p rest ih =>
    unfold insertProp
    rw [h p (List.mem_cons_self _ _)]
    simp only [Bool.false_eq_true, if_false, List.cons_append]
    rw [ih fun q hq => h q (List.mem_cons_of_mem _ hq)]

theorem setProp_eq_append (o : Obj) (key : String) (v w : JSVal)
    (h : IsObject (o ++ [(key, w)])) : setProp o key v = o ++ [(key, v)] := by
  unfold IsObject at h
  rw [List.pairwise_append] at h
  obtain ⟨_, _, h3⟩ := h
  have hnot : hasOwn o key = false := by
    cases hh : hasOwn o key with
    | false => rfl
    | true =>
      obtain ⟨p, hp, hpe⟩ := List.mem_map.1 ((hasOwn_iff o key).1 hh)
      exact absurd hpe (h3 p hp (key, w) (List.mem_singleton_self _)).1
  unfold setProp
  rw [hnot]
  simp only [Bool.false_eq_true, if_false]
  exact insertProp_eq_append o key v fun p hp => (h3 p hp (key, w) (List.mem_singleton_self _)).2

theorem foldl_setProp_isObject (g : JSVal → JSVal) (q : Obj) (acc : Obj) (h : IsObject acc) :
    IsObject (q.foldl (fun acc field => setProp acc field.1 (g field.2)) acc) := by
  induction q generalizing acc with
  | nil => exact h
  | cons p rest ih => exact ih _ (isObject_setProp acc p.1 (g p.2) h)

theorem foldl_setProp_eq_map (g : JSVal → JSVal) (q : Obj) (h : IsObject q) :
    q.foldl (fun acc field => setProp acc field.1 (g field.2)) [] =
      q.map fun p => (p.1, g p.2) := by
  induction q using List.reverseRecOn with
  | nil => rfl
  | append_singleton l a ih =>
    have hl : IsObject l := by
      unfold IsObject at h ⊢
      exact (List.pairwise_append.1 h).1
    rw [List.foldl_append, List.foldl_cons, List.foldl_nil, ih hl, List.map_append]
    have hmap : IsObject ((l.map fun p => (p.1, g p.2)) ++ [(a.1, a.2)]) := by
      rw [isObject_iff_keys] at h ⊢
      have : keys ((l.map fun p => (p.1, g p.2)) ++ [(a.1, a.2)]) = keys (l ++ [a]) := by
        simp [keys, List.map_append, Function.comp_def]
      rw [this]
      exact h
    rw [setProp_eq_append _ a.1 (g a.2) a.2 hmap]
    rfl

theorem localQuery_isObject (query : Option Obj) : IsObject (localQuery query) := by
  cases query with
  | none => simp [localQuery, IsObject]
  | some q => exact foldl_setProp_isObject normalizeValue q [] (by simp [IsObject])

theorem localQuery_eq_map (q : Obj) (h : IsObject q) :
    localQuery (some q) = q.map fun p => (p.1, normalizeValue p.2) :=
  foldl_setProp_eq_map normalizeValue q h

/-! ## The merger fold -/

theorem mergeStep_of_not_hasOwn (old acc : Obj) (field : String × JSVal)
    (h : hasOwn acc field.1 = false) :
    mergeStep old acc field = some (setProp acc field.1 field.2) := by
  simp [mergeStep, h]

theorem mergeStep_of_old (old acc : Obj) (field : String × JSVal)
    (h : hasOwn old field.1 = true) :
    mergeStep old acc field = some (absorbOld acc field) := by
  unfold mergeStep absorbOld
  cases hacc : hasOwn acc field.1 <;> simp [h, hacc]

theorem foldlM_mergeStep_fresh (old : Obj) (l : Obj) (acc : Obj) (hnd : (keys l).Nodup)
    (hdisj : ∀ k ∈ keys l, k ∉ keys acc) :
    l.foldlM (mergeStep old) acc =
      some (l.foldl (fun a field => setProp a field.1 (id field.2)) acc) := by
  induction l generalizing acc with
  | nil => rfl
  | cons p rest ih =>
    simp only [keys, List.map_cons, List.nodup_cons] at hnd
    have hp : hasOwn acc p.1 = false := by
      cases hh : hasOwn acc p.1 with
      | false => rfl
      | true =>
        exact absurd ((hasOwn_iff acc p.1).1 hh) (hdisj p.1 (by simp [keys]))
    rw [List.foldlM_cons, mergeStep_of_not_hasOwn old acc p hp]
    simp only [Option.bind_eq_bind, Option.some_bind, List.foldl_cons, id]
    apply ih _ hnd.2
    intro k hk hmem
    rw [mem_keys_setProp] at hmem
    rcases hmem with hmem | hmem
    · rw [hmem] at hk
      exact hnd.1 hk
    · exact hdisj k (by simp only [keys, List.map_cons, List.mem_cons]; exact Or.inr hk) hmem

theorem foldlM_mergeStep_old (old : Obj) (l : Obj) (acc : Obj)
    (h : ∀ p ∈ l, hasOwn old p.1 = true) :
    l.foldlM (mergeStep old) acc = some (l.foldl absorbOld acc) := by
  induction l generalizing acc with
  | nil => rfl
  | cons p rest ih =>
    rw [List.foldlM_cons, mergeStep_of_old old acc p (h p (List.mem_cons_self _ _))]
    simp only [Option.bind_eq_bind, Option.some_bind, List.foldl_cons]
    exact ih _ fun q hq => h q (List.mem_cons_of_mem _ hq)

theorem hasOwn_of_mem (o : Obj) (p : String × JSVal) (h : p ∈ o) : hasOwn o p.1 = true :=
  (hasOwn_iff o p.1).2 (List.mem_map_of_mem Prod.fst h)

/-- The merger never throws on a normalized input, and what it returns is the
normalized input followed by a pass of `absorbOld` over the old query. -/
theorem newQueryObject_eq (isSaveOld : Bool) (old : Obj) (localQ : Obj)
    (h : IsObject localQ) :
    newQueryObject isSaveOld old localQ = some (mergedQuery isSaveOld old localQ) := by
  unfold newQueryObject mergedQuery
  split
  · rw [List.foldlM_append,
      foldlM_mergeStep_fresh old localQ [] h.nodup_keys (fun k _ hk => by simp [keys] at hk),
      foldl_setProp_eq_map id localQ h]
    simp only [Option.bind_eq_bind, Option.some_bind, id, Prod.mk.eta, List.map_id']
    exact foldlM_mergeStep_old old old localQ fun p hp => hasOwn_of_mem old p hp
  · rfl

theorem absorbOld_keeps (acc : Obj) (field : String × JSVal) (k : String)
    (hk : k ∈ keys acc) :
    k ∈ keys (absorbOld acc field) ∧ getProp (absorbOld acc field) k = getProp acc k := by
  unfold absorbOld
  split
  · exact ⟨hk, rfl⟩
  · next hn =>
    refine ⟨(mem_keys_setProp acc field.1 field.2 k).2 (Or.inr hk), ?_⟩
    rw [getProp_setProp]
    have : ¬ k = field.1 := fun e => hn ((hasOwn_iff acc field.1).2 (e ▸ hk))
    rw [if_neg this]

theorem foldl_absorbOld_keeps (l : Obj) (acc : Obj) (k : String) (hk : k ∈ keys acc) :
    k ∈ keys (l.foldl absorbOld acc) ∧ getProp (l.foldl absorbOld acc) k = getProp acc k := by
  induction l generalizing acc with
  | nil => exact ⟨hk, rfl⟩
  | cons p rest ih =>
    obtain ⟨h1, h2⟩ := absorbOld_keeps acc p k hk
    obtain ⟨h3, h4⟩ := ih (absorbOld acc p) h1
    exact ⟨h3, h4.trans h2⟩

theorem newQueryObject_without_old (isSaveOld : Bool) (old : Obj) (localQ : Obj)
    (h : isSaveOld = false ∨ isEmpty old = true) :
    newQueryObject isSaveOld old localQ = some localQ := by
  unfold newQueryObject
  rcases h with h | h <;> simp [h]

/-! ## Claims about the merger -/

/-- C1: on the documented example (old query `test=value&field=test`, input
`{ test: 'field' }`, `isSaveOld: true`) the function writes
`?test=field&field=test`: the old value of the colliding key `test` is not
carried, so the documented result `?test=value&test=field&field=test` is not
what is written. -/
theorem documented_merge_example_drops_old_value :
    setQuery "http://localhost/?test=value&field=test"
        [("test", .str "value"), ("field", .str "test")]
        (some [("test", .str "field")]) (.object ⟨some true, none, none⟩)
      = some "?test=field&field=test" ∧
    setQuery "http://localhost/?test=value&field=test"
        [("test", .str "value"), ("field", .str "test")]
        (some [("test", .str "field")]) (.object ⟨some true, none, none⟩)
      ≠ some "?test=value&test=field&field=test" := by
  decide

/-- C2: with `isSaveOld` true and a non-empty old query, the merger returns a
merged query in which every key present both in the normalized input and in the
old query has exactly the input's normalized value. -/
theorem merge_collision_keeps_input_value (query : Option Obj) (old : Obj) (key : String)
    (hold : isEmpty old = false) (hnew : hasOwn (localQuery query) key = true)
    (_hinOld : hasOwn old key = true) :
    ∃ merged, newQueryObject true old (localQuery query) = some merged ∧
      hasOwn merged key = true ∧
      getProp merged key = getProp (localQuery query) key := by
  refine ⟨old.foldl absorbOld (localQuery query), ?_, ?_⟩
  · rw [newQueryObject_eq true old _ (localQuery_isObject query)]
    simp [mergedQuery, hold]
  · have h := foldl_absorbOld_keeps old (localQuery query) key
      ((hasOwn_iff _ key).1 hnew)
    exact ⟨(hasOwn_iff _ key).2 h.1, h.2⟩

theorem merge_collision_keeps_input_value_witness :
    (isEmpty [("test", .str "value"), ("field", .str "test")] = false ∧
      hasOwn (localQuery (some [("test", .str "field")])) "test" = true ∧
      hasOwn [("test", .str "value"), ("field", .str "test")] "test" = true) ∧
    ∃ merged,
      newQueryObject true [("test", .str "value"), ("field", .str "test")]
        (localQuery (some [("test", .str "field")])) = some merged ∧
      hasOwn merged "test" = true ∧
      getProp merged "test" = getProp (localQuery (some [("test", .str "field")])) "test" :=
  ⟨by decide,
    merge_collision_keeps_input_value (some [("test", .str "field")])
      [("test", .str "value"), ("field", .str "test")] "test" (by decide) (by decide)
      (by decide)⟩

/-- C3: if `isSaveOld` is false, or the old query is empty, the merged query is
the normalized input query itself: same keys, same values, same order. -/
theorem merge_without_old_is_input (isSaveOld : Bool) (old : Obj) (query : Option Obj)
    (h : isSaveOld = false ∨ isEmpty old = true) :
    newQueryObject isSaveOld old (localQuery query) = some (localQuery query) := by
  unfold newQueryObject
  rcases h with h | h <;> simp [h]

theorem merge_without_old_is_input_witness :
    ((false = false ∨ isEmpty [("other", .str "1")] = true) ∧
      newQueryObject false [("other", .str "1")] (localQuery (some [("a", .str "b")]))
        = some (localQuery (some [("a", .str "b")]))) ∧
    ((true = false ∨ isEmpty [] = true) ∧
      newQueryObject true [] (localQuery (some [("a", .str "b")]))
        = some (localQuery (some [("a", .str "b")]))) :=
  ⟨⟨Or.inl rfl, merge_without_old_is_input false [("other", .str "1")]
      (some [("a", .str "b")]) (Or.inl rfl)⟩,
    ⟨Or.inr rfl, merge_without_old_is_input true [] (some [("a", .str "b")]) (Or.inr rfl)⟩⟩

/-! ## The normalizer -/

theorem any_strictEq_str (seen : List String) (x : String) :
    (seen.map JSVal.str).any (strictEq (.str x)) = seen.contains x := by
  induction seen with
  | nil => rfl
  | cons y rest ih =>
    simp only [List.map_cons, List.any_cons, List.contains_cons, ih, strictEq]

theorem uniqFrom_str (seen l : List String) :
    uniqFrom (seen.map JSVal.str) (l.map JSVal.str) =
      ((firstOccurrences l).filter fun s => !seen.contains s).map JSVal.str := by
  induction l generalizing seen with
  | nil => rfl
  | cons x xs ih =>
    simp only [List.map_cons, uniqFrom, any_strictEq_str, firstOccurrences]
    by_cases hx : x ∈ seen
    · have hc : seen.contains x = true := by simpa using hx
      rw [if_pos hc, ih seen, List.filter_cons_of_neg (by simp [hx]), List.filter_filter]
      congr 1
      apply List.filter_congr
      intro s _
      by_cases hs : s ∈ seen
      · simp [hs]
      · have : s ≠ x := fun e => hs (e ▸ hx)
        simp [hs, this]
    · have hc : ¬ seen.contains x = true := by simpa using hx
      rw [if_neg hc, List.filter_cons_of_pos (by simp [hx]), List.map_cons]
      have := ih (seen ++ [x])
      rw [List.map_append, List.map_cons, List.map_nil] at this
      rw [this, List.filter_filter]
      congr 2
      apply List.filter_congr
      intro s _
      by_cases hs : s ∈ seen
      · simp [hs]
      · by_cases hsx : s = x
        · simp [hsx]
        · simp [hs, hsx]

theorem uniq_str (l : List String) :
    uniq (l.map JSVal.str) = (firstOccurrences l).map JSVal.str := by
  have h := uniqFrom_str [] l
  simpa [uniq] using h

theorem mem_firstOccurrences (l : List String) (s : String) :
    s ∈ firstOccurrences l ↔ s ∈ l := by
  induction l with
  | nil => simp [firstOccurrences]
  | cons x xs ih =>
    simp only [firstOccurrences, List.mem_cons, List.mem_filter, ih, bne_iff_ne, ne_eq,
      decide_not, Bool.not_eq_true', decide_eq_false_iff_not]
    by_cases h : s = x <;> simp [h]

theorem nodup_firstOccurrences (l : List String) : (firstOccurrences l).Nodup := by
  induction l with
  | nil => simp [firstOccurrences]
  | cons x xs ih =>
    simp only [firstOccurrences, List.nodup_cons, List.mem_filter, bne_self_eq_false,
      Bool.false_eq_true, and_false, not_false_eq_true, true_and]
    exact ih.filter _

mutual
theorem flattenVal_leaves : ∀ (v w : JSVal), w ∈ flattenVal v → isArray w = false
  | .arr xs, w, h => by
    rw [flattenVal] at h
    exact flattenDeep_leaves xs w h
  | .undefined, w, h => by
    rw [flattenVal, List.mem_singleton] at h
    subst h; rfl
  | .null, w, h => by
    rw [flattenVal, List.mem_singleton] at h
    subst h; rfl
  | .bool b, w, h => by
    rw [flattenVal, List.mem_singleton] at h
    subst h; rfl
  | .num n, w, h => by
    rw [flattenVal, List.mem_singleton] at h
    subst h; rfl
  | .str s, w, h => by
    rw [flattenVal, List.mem_singleton] at h
    subst h; rfl
theorem flattenDeep_leaves : ∀ (xs : List JSVal) (w : JSVal), w ∈ flattenDeep xs → isArray w = false
  | [], w, h => by
    rw [flattenDeep] at h
    exact absurd h (List.not_mem_nil w)
  | x :: xs, w, h => by
    rw [flattenDeep, List.mem_append] at h
    rcases h with h | h
    · exact flattenVal_leaves x w h
    · exact flattenDeep_leaves xs w h
end

theorem normalizeValue_eq_spec (v : JSVal) : normalizeValue v = specNormalized v := by
  cases v with
  | arr xs =>
    simp only [normalizeValue, isArray, if_true, specNormalized]
    rw [← uniq_str, List.map_map]
    rfl
  | undefined => rfl
  | null => rfl
  | bool b => rfl
  | num n => rfl
  | str s => rfl

/-- C4: the normalizer keeps the keys of the input in order, maps every field
whose value is not an array to itself and every array-valued field to the first
occurrences of the string forms of its completely flattened leaves; the strings
it keeps are pairwise distinct, and no flattened leaf is an array. -/
theorem normalizer_flattens_and_dedups (q : Obj) (hq : IsObject q) :
    localQuery (some q) = q.map (fun p => (p.1, specNormalized p.2)) ∧
    (∀ p ∈ q, isArray p.2 = false → specNormalized p.2 = p.2) ∧
    (∀ p ∈ q, ∀ xs, p.2 = .arr xs →
      specNormalized p.2 = .arr ((firstOccurrences ((flattenDeep xs).map toStr)).map JSVal.str) ∧
      (firstOccurrences ((flattenDeep xs).map toStr)).Nodup ∧
      (∀ s, s ∈ firstOccurrences ((flattenDeep xs).map toStr) ↔
        ∃ leaf ∈ flattenDeep xs, toStr leaf = s) ∧
      (∀ leaf ∈ flattenDeep xs, isArray leaf = false)) := by
  refine ⟨?_, ?_, ?_⟩
  · rw [localQuery_eq_map q hq]
    apply List.map_congr_left
    intro p _
    rw [normalizeValue_eq_spec]
  · intro p _ hp
    cases hv : p.2 <;> simp [hv, isArray, specNormalized] at hp ⊢
  · intro p _ xs hxs
    refine ⟨by rw [hxs, specNormalized], nodup_firstOccurrences _, ?_, flattenDeep_leaves xs⟩
    intro s
    rw [mem_firstOccurrences, List.mem_map]

theorem normalizer_flattens_and_dedups_witness :
    IsObject [("test", .arr [.arr [.str "a"], .arr [.str "b", .str "a"]]),
        ("n", .arr [.num 1, .str "1"]), ("s", .str "x")] ∧
    localQuery (some [("test", .arr [.arr [.str "a"], .arr [.str "b", .str "a"]]),
        ("n", .arr [.num 1, .str "1"]), ("s", .str "x")])
      = [("test", .arr [.str "a", .str "b"]), ("n", .arr [.str "1"]), ("s", .str "x")] :=
  ⟨by decide,
    (normalizer_flattens_and_dedups
      [("test", .arr [.arr [.str "a"], .arr [.str "b", .str "a"]]),
        ("n", .arr [.num 1, .str "1"]), ("s", .str "x")] (by decide)).1.trans rfl⟩

/-! ## The serializer -/

theorem queryItem_eq_itemText (b : Bool) (o : Obj) (key : String) :
    queryItem b o key = itemText b key (getProp o key) := by
  unfold queryItem itemText
  split
  · rfl
  · cases getProp o key <;> rfl

theorem getProp_of_mem (o : Obj) (p : String × JSVal) (hnd : (keys o).Nodup) (hp : p ∈ o) :
    getProp o p.1 = p.2 := by
  induction o with
  | nil => exact absurd hp (List.not_mem_nil p)
  | cons q rest ih =>
    simp only [keys, List.map_cons, List.nodup_cons] at hnd
    rw [getProp_cons]
    rcases List.mem_cons.1 hp with h | h
    · subst h; simp
    · have hne : ¬ p.1 = q.1 := fun e => hnd.1 (e ▸ List.mem_map_of_mem Prod.fst h)
      rw [if_neg hne]
      exact ih hnd.2 h

theorem map_queryItem (b : Bool) (o : Obj) (hnd : (keys o).Nodup) :
    (keys o).map (queryItem b o) = o.map fun p => itemText b p.1 p.2 := by
  unfold keys
  rw [List.map_map]
  apply List.map_congr_left
  intro p hp
  simp only [Function.comp_apply]
  rw [queryItem_eq_itemText, getProp_of_mem o p hnd hp]

theorem pairText_ne_empty (key : String) (value : JSVal) : pairText key value ≠ "" := by
  intro h
  have := congrArg String.data h
  simp [pairText] at this

theorem itemText_scalar (b : Bool) (key : String) (value : JSVal) (hk : key ≠ "&")
    (hv : isArray value = false) : itemText b key value = fieldText b key value := by
  unfold itemText
  have : (key == "&") = false := by simpa using hk
  rw [this]
  cases value <;> first | rfl | simp [isArray] at hv

theorem filter_truthy_items (q : Obj)
    (hkeys : ∀ p ∈ q, p.1 ≠ "" ∧ p.1 ≠ "&") (hscalar : ∀ p ∈ q, isArray p.2 = false) :
    (q.map fun p => itemText false p.1 p.2).filter (fun s => s != "") =
      (q.filter fun p => truthy p.2).map fun p => pairText p.1 p.2 := by
  induction q with
  | nil => rfl
  | cons p rest ih =>
    have hrest := ih (fun r hr => hkeys r (List.mem_cons_of_mem _ hr))
      (fun r hr => hscalar r (List.mem_cons_of_mem _ hr))
    have hp := hkeys p (List.mem_cons_self _ _)
    rw [List.map_cons, itemText_scalar false p.1 p.2 hp.2 (hscalar p (List.mem_cons_self _ _))]
    have hne : (p.1 != "") = true := by simpa using hp.1
    cases ht : truthy p.2
    · have : fieldText false p.1 p.2 = "" := by simp [fieldText, ht]
      rw [this, List.filter_cons_of_neg (by simp), List.filter_cons_of_neg (by simp [ht]), hrest]
    · have : fieldText false p.1 p.2 = pairText p.1 p.2 := by simp [fieldText, ht, hne]
      rw [this, List.filter_cons_of_pos (by simpa using pairText_ne_empty p.1 p.2),
        List.filter_cons_of_pos (by simp [ht]), List.map_cons, hrest]

theorem normalizeValue_scalar (v : JSVal) (h : isArray v = false) : normalizeValue v = v := by
  simp [normalizeValue, h]

theorem localQuery_scalars (q : Obj) (hq : IsObject q) (hscalar : ∀ p ∈ q, isArray p.2 = false) :
    localQuery (some q) = q := by
  rw [localQuery_eq_map q hq]
  conv_rhs => rw [← List.map_id q]
  apply List.map_congr_left
  intro p hp
  rw [normalizeValue_scalar p.2 (hscalar p hp)]
  rfl

/-- C6: for an input whose values are all scalars and whose keys are non-empty
and different from `&`, with `isSaveOld` false and `isSaveEmptyFields` false,
the joined query string is the `&`-join of the pairs
`encodeURIComponent(key)=encodeURIComponent(value)` of exactly the entries with
a truthy value, in the input's order, and that string is what is written. -/
theorem scalar_query_string_is_truthy_pairs (href : String) (old : Obj) (q : Obj)
    (isSaveHash : Bool) (hq : IsObject q)
    (hkeys : ∀ p ∈ q, p.1 ≠ "" ∧ p.1 ≠ "&") (hscalar : ∀ p ∈ q, isArray p.2 = false) :
    newQueryObject false old (localQuery (some q)) = some q ∧
    newQueryString false q =
      jsJoin "&" ((q.filter fun p => truthy p.2).map fun p =>
        encodeURIComponent p.1 ++ "=" ++ encodeURIComponent (toStr p.2)) ∧
    setQueryWith href old (some q) false isSaveHash false =
      some (pushedUrl href
        (jsJoin "&" ((q.filter fun p => truthy p.2).map fun p =>
          encodeURIComponent p.1 ++ "=" ++ encodeURIComponent (toStr p.2)))
        (hash isSaveHash href)) := by
  have hlocal := localQuery_scalars q hq hscalar
  have hjoin : newQueryString false q =
      jsJoin "&" ((q.filter fun p => truthy p.2).map fun p =>
        encodeURIComponent p.1 ++ "=" ++ encodeURIComponent (toStr p.2)) := by
    unfold newQueryString
    rw [map_queryItem false q hq.nodup_keys, filter_truthy_items q hkeys hscalar]
    rfl
  refine ⟨?_, hjoin, ?_⟩
  · rw [hlocal]; rfl
  · unfold setQueryWith
    rw [hlocal]
    simp only [newQueryObject, Bool.false_and, Bool.false_eq_true, if_false, Option.some_bind,
      hjoin]

theorem scalar_query_string_is_truthy_pairs_witness :
    (IsObject [("a b", .str "x&y"), ("e", .str ""), ("z", .num 0), ("n", .null),
        ("u", .undefined), ("f", .bool false), ("k", .num 7)] ∧
      (∀ p ∈ ([("a b", .str "x&y"), ("e", .str ""), ("z", .num 0), ("n", .null),
        ("u", .undefined), ("f", .bool false), ("k", .num 7)] : Obj), p.1 ≠ "" ∧ p.1 ≠ "&") ∧
      (∀ p ∈ ([("a b", .str "x&y"), ("e", .str ""), ("z", .num 0), ("n", .null),
        ("u", .undefined), ("f", .bool false), ("k", .num 7)] : Obj), isArray p.2 = false)) ∧
    newQueryString false [("a b", .str "x&y"), ("e", .str ""), ("z", .num 0), ("n", .null),
        ("u", .undefined), ("f", .bool false), ("k", .num 7)] = "a%20b=x%26y&k=7" :=
  ⟨⟨by decide, by decide, by decide⟩,
    (scalar_query_string_is_truthy_pairs "http://localhost/" []
      [("a b", .str "x&y"), ("e", .str ""), ("z", .num 0), ("n", .null),
        ("u", .undefined), ("f", .bool false), ("k", .num 7)] true (by decide) (by decide)
      (by decide)).2.1.trans (by decide)⟩

theorem newQueryString_eq_survivingItems (b : Bool) (o : Obj) (hnd : (keys o).Nodup) :
    newQueryString b o = jsJoin "&" (survivingItems b o) := by
  unfold newQueryString survivingItems
  rw [map_queryItem b o hnd]

theorem survivingItems_append (b : Bool) (o1 o2 : Obj) :
    survivingItems b (o1 ++ o2) = survivingItems b o1 ++ survivingItems b o2 := by
  simp [survivingItems, List.map_append, List.filter_append]

/-- C7: with `isSaveEmptyFields` true, a scalar entry of the merged query whose
key is non-empty and not `&` contributes exactly one text to the joined string,
at its own place, and that text is the pair
`encodeURIComponent(key)=encodeURIComponent(value)`; it is never dropped, and for
the empty string value it is `encodeURIComponent(key)=`. -/
theorem save_empty_fields_keeps_scalar_entry (before after : Obj) (key : String)
    (value : JSVal) (hobj : IsObject (before ++ (key, value) :: after))
    (hscalar : isArray value = false) (hk : key ≠ "") (hamp : key ≠ "&") :
    newQueryString true (before ++ (key, value) :: after) =
      jsJoin "&" (survivingItems true before ++
        (encodeURIComponent key ++ "=" ++ encodeURIComponent (toStr value)) ::
          survivingItems true after) ∧
    queryItem true (before ++ (key, value) :: after) key =
      encodeURIComponent key ++ "=" ++ encodeURIComponent (toStr value) ∧
    encodeURIComponent key ++ "=" ++ encodeURIComponent (toStr value) ≠ "" ∧
    (value = .str "" →
      queryItem true (before ++ (key, value) :: after) key = encodeURIComponent key ++ "=") := by
  have hitem : itemText true key value = pairText key value := by
    rw [itemText_scalar true key value hamp hscalar]
    have : (key != "") = true := by simpa using hk
    simp [fieldText, this]
  have hq : queryItem true (before ++ (key, value) :: after) key = pairText key value := by
    rw [queryItem_eq_itemText,
      getProp_of_mem _ (key, value) hobj.nodup_keys (by simp)]
    exact hitem
  refine ⟨?_, hq, pairText_ne_empty key value, ?_⟩
  · rw [newQueryString_eq_survivingItems true _ hobj.nodup_keys, survivingItems_append]
    congr 2
    have : survivingItems true ((key, value) :: after) =
        pairText key value :: survivingItems true after := by
      unfold survivingItems
      rw [List.map_cons, hitem,
        List.filter_cons_of_pos (by simpa using pairText_ne_empty key value)]
    exact this
  · intro hv
    rw [hq, hv]
    apply String.ext
    simp [pairText, toStr, encodeURIComponent]

theorem save_empty_fields_keeps_scalar_entry_witness :
    (IsObject ([("a", .str "1")] ++ ("q r", .str "") :: [("z", .arr [.str "x"])]) ∧
      isArray (.str "") = false ∧ "q r" ≠ "" ∧ "q r" ≠ "&") ∧
    newQueryString true ([("a", .str "1")] ++ ("q r", .str "") :: [("z", .arr [.str "x"])])
      = "a=1&q%20r=&z=x" :=
  ⟨⟨by decide, by decide, by decide, by decide⟩,
    (save_empty_fields_keeps_scalar_entry [("a", .str "1")] [("z", .arr [.str "x"])] "q r"
      (.str "") (by decide) (by decide) (by decide) (by decide)).1.trans (by decide)⟩

/-! ## A single array-valued field -/

theorem flattenDeep_strs (strs : List String) :
    flattenDeep (strs.map JSVal.str) = strs.map JSVal.str := by
  induction strs with
  | nil => rfl
  | cons x xs ih =>
    rw [List.map_cons, flattenDeep, flattenVal, ih]
    rfl

theorem normalizeValue_strs (strs : List String) :
    normalizeValue (.arr (strs.map JSVal.str)) = .arr ((firstOccurrences strs).map JSVal.str) := by
  rw [normalizeValue_eq_spec, specNormalized, flattenDeep_strs, List.map_map]
  have : (toStr ∘ JSVal.str) = id := by
    funext x
    simp [toStr]
  rw [this, List.map_id]

theorem localQuery_single (key : String) (v : JSVal) :
    localQuery (some [(key, v)]) = [(key, normalizeValue v)] := by
  simp [localQuery, setProp, hasOwn, insertProp]

theorem jsJoin_ne_empty (sep a : String) (l : List String) (ha : a ≠ "") :
    jsJoin sep (a :: l) ≠ "" := by
  intro h
  have hd := congrArg String.data h
  cases l with
  | nil => exact ha h
  | cons b rest =>
    simp only [jsJoin, String.data_append, List.append_eq_nil] at hd
    exact ha (String.ext hd.1.1)

theorem filter_pairs_strs (b : Bool) (key : String) (strs : List String) (hk : key ≠ "")
    (hs : ∀ s ∈ strs, s ≠ "") :
    (((strs.map JSVal.str).map fun arrayValue => fieldText b key arrayValue).filter
        fun queryItem => queryItem != "") =
      strs.map fun s => encodeURIComponent key ++ "=" ++ encodeURIComponent s := by
  induction strs with
  | nil => rfl
  | cons x xs ih =>
    have hx : x ≠ "" := hs x (List.mem_cons_self _ _)
    have hkb : (key != "") = true := by simpa using hk
    have hf : fieldText b key (.str x) = pairText key (.str x) := by
      cases b <;> simp [fieldText, truthy, hkb, hx]
    rw [List.map_cons, List.map_cons, hf,
      List.filter_cons_of_pos (by simpa using pairText_ne_empty key (.str x)),
      ih fun s h => hs s (List.mem_cons_of_mem _ h)]
    rfl

theorem firstOccurrences_ne_nil (strs : List String) (h : strs ≠ []) :
    firstOccurrences strs ≠ [] := by
  cases strs with
  | nil => exact absurd rfl h
  | cons x xs => simp [firstOccurrences]

/-- C5 (amended): for an input holding one array-valued field with a non-empty
key other than `&`, whose value is a non-empty array of non-empty strings, and
with no old query merged, the written suffix is `?` followed by one pair
`encodeURIComponent(key)=encodeURIComponent(element)` per distinct element, in
order of first occurrence, joined by `&`, followed by `#` and the preserved
hash when there is one; each distinct element appears exactly once. -/
theorem array_field_suffix (href : String) (old : Obj) (key : String) (strs : List String)
    (isSaveOld isSaveHash isSaveEmptyFields : Bool)
    (hk : key ≠ "") (hamp : key ≠ "&") (hne : strs ≠ []) (hs : ∀ s ∈ strs, s ≠ "")
    (hold : isSaveOld = false ∨ isEmpty old = true) :
    setQueryWith href old (some [(key, .arr (strs.map JSVal.str))]) isSaveOld isSaveHash
        isSaveEmptyFields =
      some ("?" ++
        jsJoin "&" ((firstOccurrences strs).map fun s =>
          encodeURIComponent key ++ "=" ++ encodeURIComponent s) ++
        hashText (hash isSaveHash href)) ∧
    (firstOccurrences strs).Nodup ∧ (∀ s, s ∈ firstOccurrences strs ↔ s ∈ strs) := by
  refine ⟨?_, nodup_firstOccurrences strs, mem_firstOccurrences strs⟩
  have hmerge : newQueryObject isSaveOld old (localQuery (some [(key, .arr (strs.map JSVal.str))]))
      = some [(key, .arr ((firstOccurrences strs).map JSVal.str))] := by
    rw [localQuery_single, normalizeValue_strs]
    unfold newQueryObject
    rcases hold with h | h <;> simp [h]
  have hampb : (key == "&") = false := by simpa using hamp
  have hitem : newQueryString isSaveEmptyFields
        [(key, .arr ((firstOccurrences strs).map JSVal.str))] =
      jsJoin "&" ((firstOccurrences strs).map fun s =>
        encodeURIComponent key ++ "=" ++ encodeURIComponent s) := by
    have hfo : ∀ s ∈ firstOccurrences strs, s ≠ "" := fun s h =>
      hs s ((mem_firstOccurrences strs s).1 h)
    have hq : queryItem isSaveEmptyFields [(key, .arr ((firstOccurrences strs).map JSVal.str))] key
        = jsJoin "&" ((firstOccurrences strs).map fun s =>
            encodeURIComponent key ++ "=" ++ encodeURIComponent s) := by
      rw [queryItem_eq_itemText, getProp_cons]
      simp only [if_true, itemText, hampb, Bool.false_eq_true, if_false]
      rw [filter_pairs_strs isSaveEmptyFields key _ hk hfo]
    have hnonempty : jsJoin "&" ((firstOccurrences strs).map fun s =>
          encodeURIComponent key ++ "=" ++ encodeURIComponent s) ≠ "" := by
      cases hfo2 : firstOccurrences strs with
      | nil => exact absurd hfo2 (firstOccurrences_ne_nil strs hne)
      | cons x xs =>
        rw [List.map_cons]
        exact jsJoin_ne_empty _ _ _ (pairText_ne_empty key (.str x))
    unfold newQueryString
    simp only [keys, List.map_cons, List.map_nil]
    rw [hq, List.filter_cons_of_pos (by simpa using hnonempty)]
    rfl
  unfold setQueryWith
  rw [hmerge, Option.some_bind, hitem]
  unfold pushedUrl
  have hnonempty : jsJoin "&" ((firstOccurrences strs).map fun s =>
        encodeURIComponent key ++ "=" ++ encodeURIComponent s) ≠ "" := by
    cases hfo2 : firstOccurrences strs with
    | nil => exact absurd hfo2 (firstOccurrences_ne_nil strs hne)
    | cons x xs =>
      rw [List.map_cons]
      exact jsJoin_ne_empty _ _ _ (pairText_ne_empty key (.str x))
  rw [if_pos (by simpa using hnonempty)]

theorem array_field_suffix_witness :
    ("test" ≠ "" ∧ "test" ≠ "&" ∧ ["12", "34", "12"] ≠ [] ∧
      (∀ s ∈ ["12", "34", "12"], s ≠ "") ∧ (false = false ∨ isEmpty [] = true)) ∧
    setQueryWith "http://localhost/" [] (some [("test", .arr (["12", "34", "12"].map JSVal.str))])
      false true false = some "?test=12&test=34" :=
  ⟨⟨by decide, by decide, by decide, by decide, Or.inl rfl⟩,
    (array_field_suffix "http://localhost/" [] "test" ["12", "34", "12"] false true false
      (by decide) (by decide) (by decide) (by decide) (Or.inl rfl)).1.trans (by decide)⟩

/-- C5 (counterexample): for the one-field input `{ test: [] }` with no old query
the written suffix is the bare path, not `?` followed by the (empty) list of
pairs; and for `{ test: ['12', '34', '12'] }` on an address with a fragment the
suffix carries `#top` after the pairs. -/
theorem empty_array_or_fragment_breaks_suffix :
    (setQueryWith "http://localhost/" [] (some [("test", .arr ([].map JSVal.str))])
        false true false = some "http://localhost/" ∧
      setQueryWith "http://localhost/" [] (some [("test", .arr ([].map JSVal.str))])
        false true false ≠
        some ("?" ++ jsJoin "&" ((firstOccurrences []).map fun s =>
          encodeURIComponent "test" ++ "=" ++ encodeURIComponent s))) ∧
    (setQueryWith "http://localhost/#top" []
        (some [("test", .arr (["12", "34", "12"].map JSVal.str))]) false true false
        = some "?test=12&test=34#top" ∧
      setQueryWith "http://localhost/#top" []
        (some [("test", .arr (["12", "34", "12"].map JSVal.str))]) false true false ≠
        some ("?" ++ jsJoin "&" ((firstOccurrences ["12", "34", "12"]).map fun s =>
          encodeURIComponent "test" ++ "=" ++ encodeURIComponent s))) := by
  decide

/-! ## Splitting the address -/

theorem splitChars_eq (sep : Char) (cs : List Char) :
    splitChars sep cs =
      cs.takeWhile (fun c => c != sep) ::
        (match cs.dropWhile (fun c => c != sep) with
          | [] => []
          | _ :: rest => splitChars sep rest) := by
  induction cs with
  | nil => rfl
  | cons c cs ih =>
    rw [splitChars]
    by_cases h : c = sep
    · subst h
      simp
    · have hb : (c != sep) = true := by simpa using h
      rw [if_neg h, ih]
      simp only [List.takeWhile_cons, List.dropWhile_cons, hb, if_true]

theorem head_jsSplit (s : String) (sep : Char) :
    (jsSplit s sep).headD "" = String.mk (s.data.takeWhile fun c => c != sep) := by
  unfold jsSplit
  rw [splitChars_eq]
  rfl

theorem second_jsSplit (s : String) (sep : Char) :
    (jsSplit s sep)[1]? =
      match s.data.dropWhile (fun c => c != sep) with
      | [] => none
      | _ :: rest => some (String.mk (rest.takeWhile fun c => c != sep)) := by
  unfold jsSplit
  rw [splitChars_eq]
  cases s.data.dropWhile (fun c => c != sep) with
  | nil => rfl
  | cons d rest =>
    simp only [List.map_cons, List.getElem?_cons_succ]
    rw [splitChars_eq]
    simp

theorem barePath_eq (href : String) : barePath href = beforeQueryOrHash href := by
  unfold barePath beforeQueryOrHash
  rw [head_jsSplit, head_jsSplit]
  simp only [List.takeWhile_takeWhile]
  congr 1
  apply congrArg (fun f => List.takeWhile f href.data)
  funext c
  cases h1 : (c != '?') <;> cases h2 : (c != '#') <;> simp [h1, h2]

theorem dropWhile_ne_nil_of_mem (sep : Char) (cs : List Char) (h : sep ∈ cs) :
    cs.dropWhile (fun c => c != sep) ≠ [] := by
  intro hnil
  rw [List.dropWhile_eq_nil_iff] at hnil
  have := hnil sep h
  simp at this

theorem hash_eq_preservedFragment (isSaveHash : Bool) (href : String) :
    hash isSaveHash href =
      match preservedFragment isSaveHash href with
      | some f => .str f
      | none => if isSaveHash then .undefined else .bool false := by
  unfold hash preservedFragment
  cases isSaveHash with
  | false => rfl
  | true =>
    simp only [if_true, Bool.true_and]
    rw [second_jsSplit]
    by_cases hmem : '#' ∈ href.data
    · have hc : href.data.contains '#' = true := by simpa using hmem
      rw [hc]
      have hne := dropWhile_ne_nil_of_mem '#' href.data hmem
      cases hd : href.data.dropWhile (fun c => c != '#') with
      | nil => exact absurd hd hne
      | cons d rest => rfl
    · have hc : href.data.contains '#' = false := by simpa using hmem
      rw [hc]
      have hnil : href.data.dropWhile (fun c => c != '#') = [] := by
        rw [List.dropWhile_eq_nil_iff]
        intro x hx
        have : x ≠ '#' := fun e => hmem (e ▸ hx)
        simpa using this
      rw [hnil]
      rfl

theorem hashText_hash (isSaveHash : Bool) (href : String) :
    hashText (hash isSaveHash href) =
      match preservedFragment isSaveHash href with
      | some f => if f = "" then "" else "#" ++ f
      | none => "" := by
  rw [hash_eq_preservedFragment]
  cases preservedFragment isSaveHash href with
  | none => cases isSaveHash <;> rfl
  | some f =>
    by_cases hf : f = ""
    · subst hf; rfl
    · simp [hashText, truthy, toStr, hf]

/-! ## Characters of the query string -/

theorem hexDigit_unreserved (n : Nat) : uriUnreserved (hexDigit n) = true := by
  unfold hexDigit
  have h : n % 16 < 16 := Nat.mod_lt _ (by norm_num)
  generalize n % 16 = m at h
  interval_cases m <;> decide

theorem percentByte_chars (b : Nat) (c : Char) (h : c ∈ percentByte b) :
    uriUnreserved c = true ∨ c = '%' := by
  simp only [percentByte, List.mem_cons, List.mem_singleton, List.mem_nil_iff, or_false] at h
  rcases h with h | h | h
  · exact Or.inr h
  · exact Or.inl (h ▸ hexDigit_unreserved _)
  · exact Or.inl (h ▸ hexDigit_unreserved _)

theorem encodeChar_chars (d c : Char) (h : c ∈ encodeChar d) :
    uriUnreserved c = true ∨ c = '%' := by
  unfold encodeChar at h
  split at h
  · next hu =>
    rw [List.mem_singleton] at h
    exact Or.inl (h ▸ hu)
  · obtain ⟨b, _, hb⟩ := List.mem_flatMap.1 h
    exact percentByte_chars b c hb

theorem encodeURIComponent_chars (s : String) (c : Char) (h : c ∈ (encodeURIComponent s).data) :
    uriUnreserved c = true ∨ c = '%' := by
  unfold encodeURIComponent at h
  obtain ⟨d, _, hd⟩ := List.mem_flatMap.1 h
  exact encodeChar_chars d c hd

theorem jsJoin_chars (sep : String) (l : List String) (c : Char)
    (h : c ∈ (jsJoin sep l).data) : c ∈ sep.data ∨ ∃ s ∈ l, c ∈ s.data := by
  induction l with
  | nil => simp [jsJoin] at h
  | cons a rest ih =>
    cases rest with
    | nil => exact Or.inr ⟨a, List.mem_singleton_self a, h⟩
    | cons b rest2 =>
      simp only [jsJoin, String.data_append, List.mem_append] at h
      rcases h with (h | h) | h
      · exact Or.inr ⟨a, List.mem_cons_self _ _, h⟩
      · exact Or.inl h
      · rcases ih h with h2 | ⟨s, hs, hc⟩
        · exact Or.inl h2
        · exact Or.inr ⟨s, List.mem_cons_of_mem _ hs, hc⟩

theorem fieldText_chars (b : Bool) (key : String) (value : JSVal) (c : Char)
    (h : c ∈ (fieldText b key value).data) : uriUnreserved c = true ∨ c = '%' ∨ c = '=' := by
  have hpair : c ∈ (pairText key value).data → uriUnreserved c = true ∨ c = '%' ∨ c = '=' := by
    intro hp
    simp only [pairText, String.data_append, List.mem_append] at hp
    rcases hp with (hp | hp) | hp
    · rcases encodeURIComponent_chars _ c hp with h1 | h1
      · exact Or.inl h1
      · exact Or.inr (Or.inl h1)
    · have : c = '=' := by simpa using hp
      exact Or.inr (Or.inr this)
    · rcases encodeURIComponent_chars _ c hp with h1 | h1
      · exact Or.inl h1
      · exact Or.inr (Or.inl h1)
  unfold fieldText at h
  split at h
  · split at h
    · exact hpair h
    · simp at h
  · split at h
    · exact hpair h
    · simp at h

theorem itemText_chars (b : Bool) (key : String) (value : JSVal) (c : Char)
    (h : c ∈ (itemText b key value).data) :
    uriUnreserved c = true ∨ c = '%' ∨ c = '=' ∨ c = '&' := by
  have hfield : ∀ v, c ∈ (fieldText b key v).data →
      uriUnreserved c = true ∨ c = '%' ∨ c = '=' ∨ c = '&' := by
    intro v hv
    rcases fieldText_chars b key v c hv with h1 | h1 | h1
    · exact Or.inl h1
    · exact Or.inr (Or.inl h1)
    · exact Or.inr (Or.inr (Or.inl h1))
  unfold itemText at h
  split at h
  · simp at h
  · cases value with
    | arr xs =>
      simp only at h
      rcases jsJoin_chars _ _ c h with h1 | ⟨s, hs, hc⟩
      · have : c = '&' := by simpa using h1
        exact Or.inr (Or.inr (Or.inr this))
      · obtain ⟨v, _, hv⟩ := List.mem_map.1 (List.mem_filter.1 hs).1
        exact hfield v (hv ▸ hc)
    | undefined => exact hfield _ h
    | null => exact hfield _ h
    | bool x => exact hfield _ h
    | num n => exact hfield _ h
    | str x => exact hfield _ h

/-- Every character of the joined query string is a character
`encodeURIComponent` leaves alone, `%`, `=` or `&`. -/
theorem newQueryString_chars (b : Bool) (o : Obj) (c : Char)
    (h : c ∈ (newQueryString b o).data) :
    uriUnreserved c = true ∨ c = '%' ∨ c = '=' ∨ c = '&' := by
  unfold newQueryString at h
  rcases jsJoin_chars _ _ c h with h1 | ⟨s, hs, hc⟩
  · have : c = '&' := by simpa using h1
    exact Or.inr (Or.inr (Or.inr this))
  · obtain ⟨k, _, hk⟩ := List.mem_map.1 (List.mem_filter.1 hs).1
    rw [queryItem_eq_itemText] at hk
    exact itemText_chars b k _ c (hk ▸ hc)

theorem setQueryWith_eq (href : String) (old : Obj) (query : Option Obj)
    (isSaveOld isSaveHash isSaveEmptyFields : Bool) :
    setQueryWith href old query isSaveOld isSaveHash isSaveEmptyFields =
      some (pushedUrl href
        (newQueryString isSaveEmptyFields (mergedQuery isSaveOld old (localQuery query)))
        (hash isSaveHash href)) := by
  unfold setQueryWith
  rw [newQueryObject_eq isSaveOld old _ (localQuery_isObject query)]
  rfl

/-! ## Claims about the hash and the written address -/

theorem preservedFragment_single (href : String) (hmem : '#' ∈ href.data)
    (hsingle : '#' ∉ (fragmentOf href).data) :
    preservedFragment true href = some (fragmentOf href) := by
  unfold preservedFragment
  have hc : href.data.contains '#' = true := by simpa using hmem
  rw [hc]
  simp only [Bool.and_self, if_true, fragmentOf]
  congr 2
  rw [List.takeWhile_eq_self_iff]
  intro x hx
  have : x ≠ '#' := fun e => hsingle (by rw [fragmentOf]; exact e ▸ hx)
  simpa using this

/-- C8 (amended): for a current href that contains `#` and whose fragment (the
portion after the first `#`) contains no further `#`, a call with `isSaveHash`
true whose joined query string is non-empty writes `?` + joined + `#` +
fragment when the fragment is non-empty, and `?` + joined when it is empty. -/
theorem hash_kept_after_query (href : String) (old : Obj) (query : Option Obj)
    (isSaveOld isSaveEmptyFields : Bool) (newQ : Obj)
    (hmem : '#' ∈ href.data)
    (hmerged : newQueryObject isSaveOld old (localQuery query) = some newQ)
    (hjoined : newQueryString isSaveEmptyFields newQ ≠ "")
    (hsingle : '#' ∉ (fragmentOf href).data) :
    setQueryWith href old query isSaveOld true isSaveEmptyFields =
      some ("?" ++ newQueryString isSaveEmptyFields newQ ++
        (if fragmentOf href = "" then "" else "#" ++ fragmentOf href)) := by
  unfold setQueryWith
  rw [hmerged, Option.some_bind]
  unfold pushedUrl
  rw [if_pos (by simpa using hjoined), hashText_hash,
    preservedFragment_single href hmem hsingle]

theorem hash_kept_after_query_witness :
    ('#' ∈ "http://localhost/p?x=1#someHash".data ∧
      newQueryObject false [("x", .str "1")] (localQuery (some [("test", .str "value")]))
        = some [("test", .str "value")] ∧
      newQueryString false [("test", .str "value")] ≠ "" ∧
      '#' ∉ (fragmentOf "http://localhost/p?x=1#someHash").data) ∧
    setQueryWith "http://localhost/p?x=1#someHash" [("x", .str "1")]
      (some [("test", .str "value")]) false true false = some "?test=value#someHash" :=
  ⟨⟨by decide, rfl, by decide, by decide⟩,
    (hash_kept_after_query "http://localhost/p?x=1#someHash" [("x", .str "1")]
      (some [("test", .str "value")]) false false [("test", .str "value")]
      (by decide) rfl (by decide) (by decide)).trans (by decide)⟩

/-- C8 (counterexample): on `http://localhost/#` the fragment is empty and the
written suffix is `?a=1`, without the `#` the claim appends; on
`http://localhost/#a#b` the fragment is `a#b` and the written suffix is `?a=1#a`,
which loses the part of the fragment from its own `#` on. -/
theorem empty_or_repeated_hash_not_kept :
    (fragmentOf "http://localhost/#" = "" ∧
      setQueryWith "http://localhost/#" [] (some [("a", .str "1")]) false true false
        = some "?a=1" ∧
      setQueryWith "http://localhost/#" [] (some [("a", .str "1")]) false true false
        ≠ some ("?" ++ newQueryString false [("a", .str "1")] ++ "#" ++
            fragmentOf "http://localhost/#")) ∧
    (fragmentOf "http://localhost/#a#b" = "a#b" ∧
      setQueryWith "http://localhost/#a#b" [] (some [("a", .str "1")]) false true false
        = some "?a=1#a" ∧
      setQueryWith "http://localhost/#a#b" [] (some [("a", .str "1")]) false true false
        ≠ some ("?" ++ newQueryString false [("a", .str "1")] ++ "#" ++
            fragmentOf "http://localhost/#a#b")) := by
  decide

/-- C9: with `isSaveHash` false the call returns, and the address it writes
contains no `#`, whatever the current href, the input, the old query and the
other options are: it is `?` + joined when the joined query string is non-empty
and the href truncated before its first `?` or `#` when it is empty. -/
theorem no_hash_when_not_saved (href : String) (old : Obj) (query : Option Obj)
    (isSaveOld isSaveEmptyFields : Bool) :
    ∃ url, setQueryWith href old query isSaveOld false isSaveEmptyFields = some url ∧
      '#' ∉ url.data ∧
      url =
        if newQueryString isSaveEmptyFields (mergedQuery isSaveOld old (localQuery query)) = ""
        then beforeQueryOrHash href
        else "?" ++
          newQueryString isSaveEmptyFields (mergedQuery isSaveOld old (localQuery query)) := by
  refine ⟨_, setQueryWith_eq href old query isSaveOld false isSaveEmptyFields, ?_, ?_⟩
  · unfold pushedUrl
    have hh : hashText (hash false href) = "" := rfl
    rw [hh]
    split
    · intro hmem
      simp only [String.data_append, List.mem_append] at hmem
      rcases hmem with (hmem | hmem) | hmem
      · simp at hmem
      · rcases newQueryString_chars _ _ _ hmem with h | h | h | h
        · exact absurd h (by decide)
        · exact absurd h (by decide)
        · exact absurd h (by decide)
        · exact absurd h (by decide)
      · simp at hmem
    · rw [barePath_eq]
      intro hmem
      simp only [String.data_append, List.mem_append] at hmem
      rcases hmem with hmem | hmem
      · unfold beforeQueryOrHash at hmem
        have := List.mem_takeWhile_imp hmem
        simp at this
      · simp at hmem
  · have hh : hashText (hash false href) = "" := rfl
    unfold pushedUrl
    rw [hh, barePath_eq]
    by_cases he :
        newQueryString isSaveEmptyFields (mergedQuery isSaveOld old (localQuery query)) = ""
    · rw [if_neg (by simp [he]), if_pos he]
      apply String.ext
      simp
    · rw [if_pos (by simpa using he), if_neg he]
      apply String.ext
      simp

/-! ## Clearing the query -/

theorem mem_replaceProp (key : String) (v : JSVal) (o : Obj) (p : String × JSVal)
    (h : p ∈ replaceProp key v o) : p = (key, v) ∨ p ∈ o := by
  induction o with
  | nil => simp [replaceProp] at h
  | cons q rest ih =>
    unfold replaceProp at h
    split at h
    · rcases List.mem_cons.1 h with h | h
      · exact Or.inl h
      · exact Or.inr (List.mem_cons_of_mem _ h)
    · rcases List.mem_cons.1 h with h | h
      · exact Or.inr (h ▸ List.mem_cons_self _ _)
      · rcases ih h with h2 | h2
        · exact Or.inl h2
        · exact Or.inr (List.mem_cons_of_mem _ h2)

theorem mem_insertProp (key : String) (v : JSVal) (o : Obj) (p : String × JSVal)
    (h : p ∈ insertProp key v o) : p = (key, v) ∨ p ∈ o := by
  induction o with
  | nil =>
    simp only [insertProp, List.mem_singleton] at h
    exact Or.inl h
  | cons q rest ih =>
    unfold insertProp at h
    split at h
    · rcases List.mem_cons.1 h with h | h
      · exact Or.inl h
      · exact Or.inr h
    · rcases List.mem_cons.1 h with h | h
      · exact Or.inr (h ▸ List.mem_cons_self _ _)
      · rcases ih h with h2 | h2
        · exact Or.inl h2
        · exact Or.inr (List.mem_cons_of_mem _ h2)

theorem mem_setProp (o : Obj) (key : String) (v : JSVal) (p : String × JSVal)
    (h : p ∈ setProp o key v) : p = (key, v) ∨ p ∈ o := by
  unfold setProp at h
  split at h
  · exact mem_replaceProp key v o p h
  · exact mem_insertProp key v o p h

theorem isArray_of_falsy (v : JSVal) (h : truthy v = false) : isArray v = false := by
  cases v <;> first | rfl | simp [truthy] at h

theorem foldl_normalize_falsy (q : Obj) (acc : Obj)
    (hq : ∀ p ∈ q, truthy p.2 = false) (hacc : ∀ p ∈ acc, truthy p.2 = false) :
    ∀ p ∈ q.foldl (fun acc field => setProp acc field.1 (normalizeValue field.2)) acc,
      truthy p.2 = false := by
  induction q generalizing acc with
  | nil => exact hacc
  | cons x rest ih =>
    apply ih _ (fun p hp => hq p (List.mem_cons_of_mem _ hp))
    intro p hp
    rcases mem_setProp _ _ _ _ hp with h | h
    · have hx := hq x (List.mem_cons_self _ _)
      rw [h, normalizeValue_scalar x.2 (isArray_of_falsy x.2 hx)]
      exact hx
    · exact hacc p h

theorem itemText_falsy (key : String) (value : JSVal) (h : truthy value = false) :
    itemText false key value = "" := by
  by_cases hk : key = "&"
  · simp [itemText, hk]
  · rw [itemText_scalar false key value hk (isArray_of_falsy value h)]
    simp [fieldText, h]

theorem survivingItems_falsy (o : Obj) (h : ∀ p ∈ o, truthy p.2 = false) :
    survivingItems false o = [] := by
  unfold survivingItems
  rw [List.filter_eq_nil_iff]
  intro s hs
  obtain ⟨p, hp, hpe⟩ := List.mem_map.1 hs
  rw [← hpe, itemText_falsy p.1 p.2 (h p hp)]
  simp

theorem newQueryString_falsy (query : Option Obj)
    (h : ∀ q, query = some q → ∀ p ∈ q, truthy p.2 = false) :
    newQueryString false (localQuery query) = "" := by
  rw [newQueryString_eq_survivingItems false _ (localQuery_isObject query).nodup_keys,
    survivingItems_falsy]
  · rfl
  · cases query with
    | none => intro p hp; simp [localQuery] at hp
    | some q =>
      exact foldl_normalize_falsy q [] (h q rfl) (fun p hp => absurd hp (List.not_mem_nil p))

/-- C10: whenever the joined query string is empty, and in particular for an
input whose every value is falsy with `isSaveEmptyFields` false and no old query
merged, the written address is the current href truncated before its first `?`
or `#`, followed by `#` + fragment exactly when a non-empty fragment was
preserved (the text between the first `#` of the href and its next `#` or its
end, under `isSaveHash` true); the part before that `#` contains no `?`. -/
theorem cleared_query_writes_bare_path (href : String) (old : Obj) (query : Option Obj)
    (isSaveOld isSaveHash isSaveEmptyFields : Bool)
    (h : (∃ newQ, newQueryObject isSaveOld old (localQuery query) = some newQ ∧
            newQueryString isSaveEmptyFields newQ = "") ∨
         (isSaveEmptyFields = false ∧ (isSaveOld = false ∨ isEmpty old = true) ∧
            ∀ q, query = some q → ∀ p ∈ q, truthy p.2 = false)) :
    setQueryWith href old query isSaveOld isSaveHash isSaveEmptyFields =
      some (beforeQueryOrHash href ++
        match preservedFragment isSaveHash href with
        | some fragment => if fragment = "" then "" else "#" ++ fragment
        | none => "") ∧
    '?' ∉ (beforeQueryOrHash href).data ∧ '#' ∉ (beforeQueryOrHash href).data := by
  have hempty : ∃ newQ, newQueryObject isSaveOld old (localQuery query) = some newQ ∧
      newQueryString isSaveEmptyFields newQ = "" := by
    rcases h with h | ⟨h1, h2, h3⟩
    · exact h
    · refine ⟨localQuery query, newQueryObject_without_old isSaveOld old _ h2, ?_⟩
      rw [h1]
      exact newQueryString_falsy query h3
  obtain ⟨newQ, hm, hj⟩ := hempty
  refine ⟨?_, ?_, ?_⟩
  · unfold setQueryWith
    rw [hm, Option.some_bind, hj]
    unfold pushedUrl
    rw [if_neg (by simp), barePath_eq, hashText_hash]
  · intro hmem
    have := List.mem_takeWhile_imp hmem
    simp at this
  · intro hmem
    have := List.mem_takeWhile_imp hmem
    simp at this

theorem cleared_query_writes_bare_path_witness :
    (((∃ newQ, newQueryObject true [("x", .str "")]
            (localQuery (some [("a", .arr [])])) = some newQ ∧
          newQueryString false newQ = "") ∨
        (false = false ∧ (true = false ∨ isEmpty [("x", .str "")] = true) ∧
          ∀ q, some [("a", JSVal.arr [])] = some q → ∀ p ∈ q, truthy p.2 = false)) ∧
      setQueryWith "http://localhost/p?x=#h?k#z" [("x", .str "")] (some [("a", .arr [])])
        true true false = some "http://localhost/p#h?k") ∧
    (((∃ newQ, newQueryObject false [] (localQuery (some [("a", .str ""), ("b", .num 0),
            ("c", .null), ("d", .undefined), ("e", .bool false)])) = some newQ ∧
          newQueryString false newQ = "") ∨
        (false = false ∧ (false = false ∨ isEmpty [] = true) ∧
          ∀ q, some [("a", JSVal.str ""), ("b", .num 0), ("c", .null), ("d", .undefined),
            ("e", .bool false)] = some q → ∀ p ∈ q, truthy p.2 = false)) ∧
      setQueryWith "http://localhost/p?a=1#" [] (some [("a", .str ""), ("b", .num 0),
          ("c", .null), ("d", .undefined), ("e", .bool false)])
        false true false = some "http://localhost/p") :=
  ⟨⟨Or.inl ⟨_, rfl, by decide⟩,
      (cleared_query_writes_bare_path "http://localhost/p?x=#h?k#z" [("x", .str "")]
        (some [("a", .arr [])]) true true false (Or.inl ⟨_, rfl, by decide⟩)).1.trans
        (by decide)⟩,
    ⟨Or.inr ⟨rfl, Or.inl rfl, by
        intro q hq
        cases hq
        decide⟩,
      (cleared_query_writes_bare_path "http://localhost/p?a=1#" [] (some [("a", .str ""),
          ("b", .num 0), ("c", .null), ("d", .undefined), ("e", .bool false)])
        false true false (Or.inr ⟨rfl, Or.inl rfl, by
          intro q hq
          cases hq
          decide⟩)).1.trans (by decide)⟩⟩

/-! ## The merged query as a list of entries -/

theorem insertProp_perm (key : String) (v : JSVal) (o : Obj) :
    (insertProp key v o).Perm (o ++ [(key, v)]) := by
  induction o with
  | nil => exact List.Perm.refl _
  | cons p rest ih =>
    unfold insertProp
    split
    · exact (List.perm_append_singleton (key, v) (p :: rest)).symm
    · exact List.Perm.cons p ih

theorem hasOwn_append_singleton (acc : Obj) (p : String × JSVal) (k : String) :
    hasOwn (acc ++ [p]) k = (hasOwn acc k || p.1 == k) := by
  simp [hasOwn, List.any_append]

theorem hasOwn_perm {o1 o2 : Obj} (h : o1.Perm o2) (k : String) : hasOwn o1 k = hasOwn o2 k := by
  have hk : ∀ o : Obj, k ∈ keys o ↔ ∃ p ∈ o, p.1 = k := by
    intro o
    simp [keys]
  cases h1 : hasOwn o1 k <;> cases h2 : hasOwn o2 k <;> try rfl
  · rw [hasOwn_iff, hk] at h2
    obtain ⟨p, hp, hpk⟩ := h2
    have : hasOwn o1 k = true := (hasOwn_iff o1 k).2 ((hk o1).2 ⟨p, h.mem_iff.2 hp, hpk⟩)
    rw [h1] at this
    exact absurd this (by simp)
  · rw [hasOwn_iff, hk] at h1
    obtain ⟨p, hp, hpk⟩ := h1
    have : hasOwn o2 k = true := (hasOwn_iff o2 k).2 ((hk o2).2 ⟨p, h.mem_iff.1 hp, hpk⟩)
    rw [h2] at this
    exact absurd this (by simp)

theorem filter_not_hasOwn_congr (rest : Obj) (acc acc2 : Obj) (p : String × JSVal)
    (hacc2 : ∀ k, hasOwn acc2 k = (hasOwn acc k || p.1 == k)) (hp : p.1 ∉ keys rest) :
    rest.filter (fun r => !hasOwn acc2 r.1) = rest.filter (fun r => !hasOwn acc r.1) := by
  apply List.filter_congr
  intro r hr
  rw [hacc2]
  have : (p.1 == r.1) = false := by
    have hne : p.1 ≠ r.1 := fun e => hp (e ▸ List.mem_map_of_mem Prod.fst hr)
    simpa using hne
  rw [this, Bool.or_false]

theorem foldl_absorbOld_perm (l : Obj) (acc : Obj) (hnd : (keys l).Nodup) :
    (l.foldl absorbOld acc).Perm (acc ++ l.filter fun p => !hasOwn acc p.1) := by
  induction l generalizing acc with
  | nil => simp
  | cons p rest ih =>
    simp only [keys, List.map_cons, List.nodup_cons] at hnd
    rw [List.foldl_cons]
    cases hp : hasOwn acc p.1
    · have hstep : absorbOld acc p = insertProp p.1 p.2 acc := by
        simp [absorbOld, setProp, hp]
      have hperm : (absorbOld acc p).Perm (acc ++ [p]) := by
        rw [hstep]
        exact insertProp_perm p.1 p.2 acc
      have hown : ∀ k, hasOwn (absorbOld acc p) k = (hasOwn acc k || p.1 == k) := by
        intro k
        rw [hasOwn_perm hperm k, hasOwn_append_singleton]
      rw [List.filter_cons_of_pos (by simp [hp])]
      refine (ih (absorbOld acc p) hnd.2).trans ?_
      rw [filter_not_hasOwn_congr rest acc (absorbOld acc p) p hown hnd.1]
      have : acc ++ p :: rest.filter (fun r => !hasOwn acc r.1) =
          (acc ++ [p]) ++ rest.filter (fun r => !hasOwn acc r.1) := by simp
      rw [this]
      exact List.Perm.append_right _ hperm
    · have hstep : absorbOld acc p = acc := by simp [absorbOld, hp]
      rw [hstep, List.filter_cons_of_neg (by simp [hp])]
      exact ih acc hnd.2

theorem foldl_absorbOld_eq_append (l : Obj) (acc : Obj) (hnd : (keys l).Nodup)
    (hidx : ∀ p ∈ l, hasOwn acc p.1 = false → arrayIndex p.1 = none) :
    l.foldl absorbOld acc = acc ++ l.filter fun p => !hasOwn acc p.1 := by
  induction l generalizing acc with
  | nil => simp
  | cons p rest ih =>
    simp only [keys, List.map_cons, List.nodup_cons] at hnd
    rw [List.foldl_cons]
    cases hp : hasOwn acc p.1
    · have hnone := hidx p (List.mem_cons_self _ _) hp
      have hstep : absorbOld acc p = acc ++ [p] := by
        have h1 : absorbOld acc p = insertProp p.1 p.2 acc := by
          simp [absorbOld, setProp, hp]
        rw [h1]
        apply insertProp_eq_append
        intro r _
        simp [keyBefore, hnone]
      have hown : ∀ k, hasOwn (absorbOld acc p) k = (hasOwn acc k || p.1 == k) := by
        intro k
        rw [hstep, hasOwn_append_singleton]
      rw [List.filter_cons_of_pos (by simp [hp]), ih (absorbOld acc p) hnd.2, 
        filter_not_hasOwn_congr rest acc (absorbOld acc p) p hown hnd.1, hstep]
      · simp
      · intro r hr hr2
        apply hidx r (List.mem_cons_of_mem _ hr)
        rw [hown] at hr2
        simp only [Bool.or_eq_false_iff] at hr2
        exact hr2.1
    · have hstep : absorbOld acc p = acc := by simp [absorbOld, hp]
      rw [hstep, List.filter_cons_of_neg (by simp [hp])]
      exact ih acc hnd.2 fun r hr => hidx r (List.mem_cons_of_mem _ hr)

theorem foldl_absorbOld_isObject (l : Obj) (acc : Obj) (h : IsObject acc) :
    IsObject (l.foldl absorbOld acc) := by
  induction l generalizing acc with
  | nil => exact h
  | cons p rest ih =>
    apply ih
    unfold absorbOld
    split
    · exact h
    · exact isObject_setProp acc p.1 p.2 h

theorem mergedQuery_isObject (isSaveOld : Bool) (old localQ : Obj) (h : IsObject localQ) :
    IsObject (mergedQuery isSaveOld old localQ) := by
  unfold mergedQuery
  split
  · exact foldl_absorbOld_isObject old localQ h
  · exact h

theorem mergedQuery_true (old localQ : Obj) :
    mergedQuery true old localQ = old.foldl absorbOld localQ := by
  cases old with
  | nil => rfl
  | cons p rest => rfl

theorem itemText_truthy_scalar (b : Bool) (key : String) (value : JSVal) (hk : key ≠ "")
    (hamp : key ≠ "&") (hscalar : isArray value = false) (htruthy : truthy value = true) :
    itemText b key value = pairText key value := by
  rw [itemText_scalar b key value hamp hscalar]
  have : (key != "") = true := by simpa using hk
  cases b <;> simp [fieldText, this, htruthy]

theorem survivingItems_truthy_scalars (b : Bool) (o : Obj)
    (hkeys : ∀ p ∈ o, p.1 ≠ "" ∧ p.1 ≠ "&")
    (hvals : ∀ p ∈ o, isArray p.2 = false ∧ truthy p.2 = true) :
    survivingItems b o = o.map fun p => pairText p.1 p.2 := by
  unfold survivingItems
  rw [List.filter_eq_self.2, List.map_congr_left]
  · intro p hp
    exact itemText_truthy_scalar b p.1 p.2 (hkeys p hp).1 (hkeys p hp).2 (hvals p hp).1
      (hvals p hp).2
  · intro s hs
    obtain ⟨p, hp, hpe⟩ := List.mem_map.1 hs
    rw [← hpe, itemText_truthy_scalar b p.1 p.2 (hkeys p hp).1 (hkeys p hp).2 (hvals p hp).1
      (hvals p hp).2]
    simpa using pairText_ne_empty p.1 p.2

/-- C11: with `isSaveOld` true, for an input and an old query with disjoint key
sets (keys non-empty and not `&`, values truthy scalars), the merged query holds
exactly the entries of the input and of the old query, each key once, and the
written query string is the `&`-join of one pair
`encodeURIComponent(key)=encodeURIComponent(value)` per merged entry: every key
of either map is in exactly one pair, with its own value. -/
theorem disjoint_merge_keeps_every_key (href : String) (q old : Obj)
    (isSaveHash isSaveEmptyFields : Bool) (hq : IsObject q) (hold : IsObject old)
    (hdisj : ∀ k, k ∈ keys q → k ∉ keys old)
    (hkeys : ∀ p ∈ q ++ old, p.1 ≠ "" ∧ p.1 ≠ "&")
    (hvals : ∀ p ∈ q ++ old, isArray p.2 = false ∧ truthy p.2 = true) :
    ∃ merged, newQueryObject true old (localQuery (some q)) = some merged ∧
      merged.Perm (q ++ old) ∧ (keys merged).Nodup ∧
      newQueryString isSaveEmptyFields merged =
        jsJoin "&" (merged.map fun p =>
          encodeURIComponent p.1 ++ "=" ++ encodeURIComponent (toStr p.2)) ∧
      setQueryWith href old (some q) true isSaveHash isSaveEmptyFields =
        some (pushedUrl href
          (jsJoin "&" (merged.map fun p =>
            encodeURIComponent p.1 ++ "=" ++ encodeURIComponent (toStr p.2)))
          (hash isSaveHash href)) := by
  have hlocal : localQuery (some q) = q :=
    localQuery_scalars q hq fun p hp => (hvals p (List.mem_append_left _ hp)).1
  have hfilter : old.filter (fun p => !hasOwn q p.1) = old := by
    rw [List.filter_eq_self]
    intro p hp
    cases hown : hasOwn q p.1 with
    | false => rfl
    | true =>
      exact absurd (List.mem_map_of_mem Prod.fst hp) (hdisj p.1 ((hasOwn_iff q p.1).1 hown))
  have hperm : (mergedQuery true old q).Perm (q ++ old) := by
    have h := foldl_absorbOld_perm old q hold.nodup_keys
    rw [hfilter] at h
    rw [mergedQuery_true]
    exact h
  have hobj := mergedQuery_isObject true old q hq
  have hstring : newQueryString isSaveEmptyFields (mergedQuery true old q) =
      jsJoin "&" ((mergedQuery true old q).map fun p =>
        encodeURIComponent p.1 ++ "=" ++ encodeURIComponent (toStr p.2)) := by
    rw [newQueryString_eq_survivingItems _ _ hobj.nodup_keys,
      survivingItems_truthy_scalars isSaveEmptyFields _
        (fun p hp => hkeys p (hperm.mem_iff.1 hp)) (fun p hp => hvals p (hperm.mem_iff.1 hp))]
    rfl
  refine ⟨mergedQuery true old q, ?_, hperm, hobj.nodup_keys, hstring, ?_⟩
  · rw [hlocal]
    exact newQueryObject_eq true old q hq
  · rw [setQueryWith_eq, hlocal, hstring]

theorem disjoint_merge_keeps_every_key_witness :
    (IsObject [("field", .str "test")] ∧ IsObject [("other", .str "1")] ∧
      (∀ k, k ∈ keys [("field", .str "test")] → k ∉ keys [("other", .str "1")]) ∧
      (∀ p ∈ ([("field", .str "test")] ++ [("other", .str "1")] : Obj),
        p.1 ≠ "" ∧ p.1 ≠ "&") ∧
      (∀ p ∈ ([("field", .str "test")] ++ [("other", .str "1")] : Obj),
        isArray p.2 = false ∧ truthy p.2 = true)) ∧
    (∃ merged,
      newQueryObject true [("other", .str "1")] (localQuery (some [("field", .str "test")]))
        = some merged ∧
      merged.Perm ([("field", .str "test")] ++ [("other", .str "1")]) ∧
      (keys merged).Nodup ∧
      newQueryString false merged =
        jsJoin "&" (merged.map fun p =>
          encodeURIComponent p.1 ++ "=" ++ encodeURIComponent (toStr p.2)) ∧
      setQueryWith "http://localhost/?other=1" [("other", .str "1")]
          (some [("field", .str "test")]) true true false =
        some (pushedUrl "http://localhost/?other=1"
          (jsJoin "&" (merged.map fun p =>
            encodeURIComponent p.1 ++ "=" ++ encodeURIComponent (toStr p.2)))
          (hash true "http://localhost/?other=1"))) ∧
    setQueryWith "http://localhost/?other=1" [("other", .str "1")]
      (some [("field", .str "test")]) true true false = some "?field=test&other=1" :=
  ⟨⟨by decide, by decide, by decide, by decide, by decide⟩,
    disjoint_merge_keeps_every_key "http://localhost/?other=1" [("field", .str "test")]
      [("other", .str "1")] true false (by decide) (by decide) (by decide) (by decide)
      (by decide),
    by decide⟩

/-! ## The fold never combines -/

theorem isObject_of_append_left {o1 o2 : Obj} (h : IsObject (o1 ++ o2)) : IsObject o1 := by
  unfold IsObject at h ⊢
  exact (List.pairwise_append.1 h).1

theorem foldlM_mergeStep_prefix (old pre rest : Obj) (h : IsObject (pre ++ rest)) :
    pre.foldlM (mergeStep old) [] = some pre := by
  have hpre := isObject_of_append_left h
  rw [foldlM_mergeStep_fresh old pre [] hpre.nodup_keys (fun k _ hk => by simp [keys] at hk),
    foldl_setProp_eq_map id pre hpre]
  simp

theorem combine_guard_false (localQ old : Obj) (hlocal : IsObject localQ)
    (pre post : Obj) (field : String × JSVal) (hsplit : localQ ++ old = pre ++ field :: post) :
    ∃ acc, pre.foldlM (mergeStep old) [] = some acc ∧
      (hasOwn acc field.1 && !hasOwn old field.1) = false := by
  rcases List.append_eq_append_iff.1 hsplit with ⟨a, hpre, hold⟩ | ⟨c, hloc, hrest⟩
  · have hin : hasOwn old field.1 = true := by
      apply hasOwn_of_mem
      rw [hold]
      simp
    have hacc : pre.foldlM (mergeStep old) [] = some (a.foldl absorbOld localQ) := by
      rw [hpre, List.foldlM_append, foldlM_mergeStep_prefix old localQ [] (by simpa using hlocal)]
      simp only [Option.bind_eq_bind, Option.some_bind]
      apply foldlM_mergeStep_old
      intro p hp
      apply hasOwn_of_mem
      rw [hold]
      exact List.mem_append_left _ hp
    exact ⟨_, hacc, by simp [hin]⟩
  · cases c with
    | nil =>
      have hin : hasOwn old field.1 = true := by
        apply hasOwn_of_mem
        simp only [List.nil_append] at hrest
        rw [← hrest]
        simp
      simp only [List.append_nil] at hloc
      refine ⟨pre, ?_, by simp [hin]⟩
      rw [← hloc]
      exact foldlM_mergeStep_prefix old localQ [] (by simpa using hlocal)
    | cons x c2 =>
      have hx : field = x := by
        simp only [List.cons_append, List.cons.injEq] at hrest
        exact hrest.1
      subst hx
      rw [hloc] at hlocal
      refine ⟨pre, foldlM_mergeStep_prefix old pre (field :: c2) hlocal, ?_⟩
      have hnot : hasOwn pre field.1 = false := by
        cases hh : hasOwn pre field.1 with
        | false => rfl
        | true =>
          have hnd := hlocal.nodup_keys
          simp only [keys, List.map_append, List.map_cons] at hnd
          have := (List.nodup_append.1 hnd).2.2
          exact absurd ((hasOwn_iff pre field.1).1 hh)
            (fun hm => this hm (List.mem_cons_self _ _))
      simp [hnot]

/-- C19 (amended): for every normalized input map and every non-empty old map,
each with unique keys, with `isSaveOld` true: the combine branch of the fold is
never taken; the merged query is an object whose entries are the input's
entries and the old query's entries whose keys are not keys of the input, each
with its original value; and when none of those old-only keys is an array index
the merged query lists the input's entries in input order followed by those old
entries in old-query order. -/
theorem merge_is_input_then_old_only_entries (localQ old : Obj) (hlocal : IsObject localQ)
    (hold : IsObject old) (hne : isEmpty old = false) :
    (∀ pre field post, localQ ++ old = pre ++ field :: post →
      ∃ acc, pre.foldlM (mergeStep old) [] = some acc ∧
        (hasOwn acc field.1 && !hasOwn old field.1) = false) ∧
    ∃ merged, newQueryObject true old localQ = some merged ∧ IsObject merged ∧
      merged.Perm (localQ ++ old.filter fun p => !hasOwn localQ p.1) ∧
      ((∀ p ∈ old, hasOwn localQ p.1 = false → arrayIndex p.1 = none) →
        merged = localQ ++ old.filter fun p => !hasOwn localQ p.1) := by
  refine ⟨fun pre field post h => combine_guard_false localQ old hlocal pre post field h,
    old.foldl absorbOld localQ, ?_, foldl_absorbOld_isObject old localQ hlocal,
    foldl_absorbOld_perm old localQ hold.nodup_keys,
    fun hidx => foldl_absorbOld_eq_append old localQ hold.nodup_keys hidx⟩
  rw [newQueryObject_eq true old localQ hlocal]
  simp [mergedQuery, hne]

theorem merge_is_input_then_old_only_entries_witness :
    (IsObject [("test", .str "field"), ("n", .arr [.str "1"])] ∧
      IsObject [("test", .str "value"), ("field", .str "test")] ∧
      isEmpty [("test", .str "value"), ("field", .str "test")] = false) ∧
    ((∀ pre field post,
        [("test", .str "field"), ("n", .arr [.str "1"])] ++
            [("test", .str "value"), ("field", .str "test")] = pre ++ field :: post →
        ∃ acc, pre.foldlM (mergeStep [("test", .str "value"), ("field", .str "test")]) []
            = some acc ∧
          (hasOwn acc field.1 &&
            !hasOwn [("test", .str "value"), ("field", .str "test")] field.1) = false) ∧
      ∃ merged,
        newQueryObject true [("test", .str "value"), ("field", .str "test")]
          [("test", .str "field"), ("n", .arr [.str "1"])] = some merged ∧
        IsObject merged ∧
        merged.Perm ([("test", .str "field"), ("n", .arr [.str "1"])] ++
          [("test", JSVal.str "value"), ("field", JSVal.str "test")].filter fun p =>
            !hasOwn [("test", .str "field"), ("n", .arr [.str "1"])] p.1) ∧
        ((∀ p ∈ ([("test", .str "value"), ("field", .str "test")] : Obj),
            hasOwn [("test", .str "field"), ("n", .arr [.str "1"])] p.1 = false →
              arrayIndex p.1 = none) →
          merged = [("test", .str "field"), ("n", .arr [.str "1"])] ++
            [("test", JSVal.str "value"), ("field", JSVal.str "test")].filter fun p =>
              !hasOwn [("test", .str "field"), ("n", .arr [.str "1"])] p.1)) ∧
    newQueryObject true [("test", .str "value"), ("field", .str "test")]
        [("test", .str "field"), ("n", .arr [.str "1"])]
      = some [("test", .str "field"), ("n", .arr [.str "1"]), ("field", .str "test")] :=
  ⟨⟨by decide, by decide, by decide⟩,
    merge_is_input_then_old_only_entries [("test", .str "field"), ("n", .arr [.str "1"])]
      [("test", .str "value"), ("field", .str "test")] (by decide) (by decide) (by decide),
    rfl⟩

/-- C19 (counterexample): for the input `{ a: 'x' }` and the old query
`{ 1: 'y' }` the merged query lists the array-index key `1` first, so it is
`{ 1: 'y', a: 'x' }` and the written string is `?1=y&a=x`, not the input's
entry followed by the old one. -/
theorem array_index_key_listed_before_input :
    (IsObject [("a", .str "x")] ∧ IsObject [("1", .str "y")] ∧
      isEmpty [("1", .str "y")] = false) ∧
    newQueryObject true [("1", .str "y")] [("a", .str "x")]
      = some [("1", .str "y"), ("a", .str "x")] ∧
    newQueryObject true [("1", .str "y")] [("a", .str "x")]
      ≠ some ([("a", .str "x")] ++
          [("1", JSVal.str "y")].filter fun p => !hasOwn [("a", .str "x")] p.1) ∧
    setQueryWith "http://localhost/?1=y" [("1", .str "y")] (some [("a", .str "x")])
      true true false = some "?1=y&a=x" := by
  refine ⟨⟨by decide, by decide, by decide⟩, rfl, ?_, by decide⟩
  have h : newQueryObject true [("1", .str "y")] [("a", .str "x")]
      = some [("1", .str "y"), ("a", .str "x")] := rfl
  rw [h]
  intro he
  simp [hasOwn] at he

/-! ## Calling twice -/

theorem takeWhile_append_stop (p : Char → Bool) (b x : List Char) (hb : ∀ c ∈ b, p c = true)
    (hx : ∀ c, x.head? = some c → p c = false) : (b ++ x).takeWhile p = b := by
  induction b with
  | nil =>
    cases x with
    | nil => rfl
    | cons c rest =>
      have := hx c rfl
      simp [List.takeWhile_cons, this]
  | cons c rest ih =>
    have hc := hb c (List.mem_cons_self _ _)
    simp only [List.cons_append, List.takeWhile_cons, hc, if_true]
    rw [ih fun d hd => hb d (List.mem_cons_of_mem _ hd)]

theorem dropWhile_append_stop (p : Char → Bool) (b x : List Char) (hb : ∀ c ∈ b, p c = true)
    (hx : ∀ c, x.head? = some c → p c = false) : (b ++ x).dropWhile p = x := by
  induction b with
  | nil =>
    cases x with
    | nil => rfl
    | cons c rest =>
      have := hx c rfl
      simp [List.dropWhile_cons, this]
  | cons c rest ih =>
    have hc := hb c (List.mem_cons_self _ _)
    simp only [List.cons_append, List.dropWhile_cons, hc, if_true]
    rw [ih fun d hd => hb d (List.mem_cons_of_mem _ hd)]

theorem beforeQueryOrHash_chars (href : String) (c : Char)
    (h : c ∈ (beforeQueryOrHash href).data) : (c != '?' && c != '#') = true := by
  unfold beforeQueryOrHash at h
  have h2 : c ∈ List.takeWhile (fun c => c != '?' && c != '#') href.data := h
  have h3 := List.mem_takeWhile_imp h2
  exact h3

theorem beforeQueryOrHash_append (href x : String)
    (hx : ∀ c, x.data.head? = some c → c = '?' ∨ c = '#') :
    beforeQueryOrHash (beforeQueryOrHash href ++ x) = beforeQueryOrHash href := by
  apply String.ext
  have h := takeWhile_append_stop (fun c => c != '?' && c != '#') (beforeQueryOrHash href).data
    x.data (beforeQueryOrHash_chars href) (by
      intro c hc
      rcases hx c hc with h | h <;> simp [h])
  simp only [beforeQueryOrHash, String.data_append] at h ⊢
  exact h

theorem preservedFragment_no_hash (isSaveHash : Bool) (s : String) (h : '#' ∉ s.data) :
    preservedFragment isSaveHash s = none := by
  unfold preservedFragment
  have : s.data.contains '#' = false := by simpa using h
  rw [this, Bool.and_false]
  rfl

theorem preservedFragment_append_hash (s f : String) (hs : '#' ∉ s.data) (hf : '#' ∉ f.data) :
    preservedFragment true (s ++ "#" ++ f) = some f := by
  unfold preservedFragment
  have hc : (s ++ "#" ++ f).data.contains '#' = true := by simp
  rw [hc]
  simp only [Bool.and_self, if_true, Option.some.injEq]
  apply String.ext
  have hdata : (s ++ "#" ++ f).data = s.data ++ ('#' :: f.data) := by simp
  rw [hdata, dropWhile_append_stop (fun c => c != '#') s.data ('#' :: f.data)
    (by
      intro c hc2
      have : c ≠ '#' := fun e => hs (e ▸ hc2)
      simpa using this)
    (by
      intro c hc2
      simp only [List.head?_cons, Option.some.injEq] at hc2
      simp [← hc2])]
  simp only [List.drop_succ_cons, List.drop_zero]
  rw [List.takeWhile_eq_self_iff]
  intro c hc2
  have : c ≠ '#' := fun e => hf (e ▸ hc2)
  simpa using this

theorem hashText_cases (isSaveHash : Bool) (href : String) :
    hashText (hash isSaveHash href) = "" ∨
      ∃ f, f ≠ "" ∧ '#' ∉ f.data ∧ isSaveHash = true ∧
        hashText (hash isSaveHash href) = "#" ++ f := by
  rw [hashText_hash]
  cases hp : preservedFragment isSaveHash href with
  | none => exact Or.inl rfl
  | some f =>
    by_cases hf : f = ""
    · exact Or.inl (by simp [hf])
    · refine Or.inr ⟨f, hf, ?_, ?_, by simp [hf]⟩
      · unfold preservedFragment at hp
        split at hp
        · simp only [Option.some.injEq] at hp
          rw [← hp]
          intro hmem
          have := List.mem_takeWhile_imp hmem
          simp at this
        · exact absurd hp (by simp)
      · unfold preservedFragment at hp
        cases isSaveHash with
        | true => rfl
        | false => simp at hp

theorem newQueryString_no_hash (b : Bool) (o : Obj) : '#' ∉ (newQueryString b o).data := by
  intro hmem
  rcases newQueryString_chars _ _ _ hmem with h | h | h | h
  · exact absurd h (by decide)
  · exact absurd h (by decide)
  · exact absurd h (by decide)
  · exact absurd h (by decide)

theorem hashText_hash_rebuilt (isSaveHash : Bool) (href s : String) (hs : '#' ∉ s.data) :
    hashText (hash isSaveHash (s ++ hashText (hash isSaveHash href))) =
      hashText (hash isSaveHash href) := by
  rcases hashText_cases isSaveHash href with h | ⟨f, hf, hnf, hsh, h⟩
  · rw [h, String.append_empty, hashText_hash, preservedFragment_no_hash isSaveHash s hs]
  · rw [h]
    subst hsh
    rw [← String.append_assoc, hashText_hash, preservedFragment_append_hash s f hs hnf]
    simp [hf]

theorem hashText_head (isSaveHash : Bool) (href : String) (c : Char)
    (h : (hashText (hash isSaveHash href)).data.head? = some c) : c = '#' := by
  rcases hashText_cases isSaveHash href with h2 | ⟨f, _, _, _, h2⟩
  · rw [h2] at h
    simp at h
  · rw [h2] at h
    simp only [String.data_append] at h
    have h3 : (['#'] ++ f.data).head? = some c := h
    simp only [List.singleton_append, List.head?_cons, Option.some.injEq] at h3
    exact h3.symm

theorem pushedUrl_again (href joined : String) (isSaveHash : Bool)
    (hj : '#' ∉ joined.data) :
    pushedUrl (addressAfter href (pushedUrl href joined (hash isSaveHash href))) joined
        (hash isSaveHash (addressAfter href (pushedUrl href joined (hash isSaveHash href))))
      = pushedUrl href joined (hash isSaveHash href) ∧
    addressAfter (addressAfter href (pushedUrl href joined (hash isSaveHash href)))
        (pushedUrl href joined (hash isSaveHash href))
      = addressAfter href (pushedUrl href joined (hash isSaveHash href)) := by
  have hbase : '#' ∉ (beforeQueryOrHash href).data := by
    intro hmem
    have := beforeQueryOrHash_chars href '#' hmem
    simp at this
  by_cases he : joined = ""
  · subst he
    have hurl : pushedUrl href "" (hash isSaveHash href) =
        beforeQueryOrHash href ++ hashText (hash isSaveHash href) := by
      unfold pushedUrl
      rw [if_neg (by simp), barePath_eq]
    have hhead : (beforeQueryOrHash href ++ hashText (hash isSaveHash href)).data.head?
        ≠ some '?' := by
      intro hq
      rw [String.data_append] at hq
      cases hb : (beforeQueryOrHash href).data with
      | nil =>
        rw [hb, List.nil_append] at hq
        have := hashText_head isSaveHash href '?' hq
        exact absurd this (by decide)
      | cons c rest =>
        rw [hb] at hq
        simp only [List.cons_append, List.head?_cons, Option.some.injEq] at hq
        have hc := beforeQueryOrHash_chars href c (by rw [hb]; exact List.mem_cons_self _ _)
        rw [hq] at hc
        simp at hc
    have haddr : addressAfter href (beforeQueryOrHash href ++ hashText (hash isSaveHash href))
        = beforeQueryOrHash href ++ hashText (hash isSaveHash href) := by
      unfold addressAfter
      rw [if_neg hhead]
    have haddr2 : ∀ h2 : String,
        addressAfter h2 (beforeQueryOrHash href ++ hashText (hash isSaveHash href))
        = beforeQueryOrHash href ++ hashText (hash isSaveHash href) := by
      intro h2
      unfold addressAfter
      rw [if_neg hhead]
    rw [hurl, haddr]
    refine ⟨?_, haddr2 _⟩
    unfold pushedUrl
    rw [if_neg (by simp), barePath_eq,
      beforeQueryOrHash_append href _ (fun c hc => Or.inr (hashText_head isSaveHash href c hc)),
      hashText_hash_rebuilt isSaveHash href _ hbase]
  · have hurl : pushedUrl href joined (hash isSaveHash href) =
        "?" ++ joined ++ hashText (hash isSaveHash href) := by
      unfold pushedUrl
      rw [if_pos (by simpa using he)]
    have hq : ("?" : String).data = ['?'] := rfl
    have hhead : ("?" ++ joined ++ hashText (hash isSaveHash href)).data.head? = some '?' := by
      simp [String.data_append, hq]
    have haddr : ∀ h2 : String,
        addressAfter h2 ("?" ++ joined ++ hashText (hash isSaveHash href))
        = beforeQueryOrHash h2 ++ ("?" ++ joined ++ hashText (hash isSaveHash href)) := by
      intro h2
      unfold addressAfter
      rw [if_pos hhead]
    have hprefix : '#' ∉ (beforeQueryOrHash href ++ "?" ++ joined).data := by
      simp only [String.data_append, List.mem_append, hq, List.mem_singleton, not_or]
      exact ⟨⟨hbase, by decide⟩, hj⟩
    have hassoc : beforeQueryOrHash href ++ ("?" ++ joined ++ hashText (hash isSaveHash href))
        = (beforeQueryOrHash href ++ "?" ++ joined) ++ hashText (hash isSaveHash href) := by
      simp [String.append_assoc]
    rw [hurl, haddr href]
    constructor
    · unfold pushedUrl
      rw [if_pos (by simpa using he), hassoc,
        hashText_hash_rebuilt isSaveHash href _ hprefix]
    · rw [haddr,
        beforeQueryOrHash_append href _ (fun c hc => by
          rw [hhead] at hc
          simp only [Option.some.injEq] at hc
          exact Or.inl hc.symm)]

/-- C12: with `isSaveOld` false, for every starting href, input and options,
two calls in a row with the same input and options both return, the second
writes the same url as the first, and the address after the second call is the
address after the first (a url starting with `?` replaces the query and
fragment of the href; any other url is the new href). The old query read by
either call plays no part. -/
theorem setQuery_twice_same_address (href : String) (old1 old2 : Obj) (query : Option Obj)
    (isSaveHash isSaveEmptyFields : Bool) :
    ∃ url1 url2,
      setQueryWith href old1 query false isSaveHash isSaveEmptyFields = some url1 ∧
      setQueryWith (addressAfter href url1) old2 query false isSaveHash isSaveEmptyFields
        = some url2 ∧
      url2 = url1 ∧
      addressAfter (addressAfter href url1) url2 = addressAfter href url1 := by
  have hm : ∀ old, mergedQuery false old (localQuery query) = localQuery query := fun old => rfl
  have h := pushedUrl_again href (newQueryString isSaveEmptyFields (localQuery query))
    isSaveHash (newQueryString_no_hash _ _)
  refine ⟨_, _, ?_, ?_, h.1, ?_⟩
  · rw [setQueryWith_eq, hm]
  · rw [setQueryWith_eq, hm]
  · rw [h.1]
    exact h.2

/-! ## Failure paths and defaults -/

/-- Apart from a `null` options argument, every call returns in this embedding,
and a null or absent input query gives the result of the empty object. -/
theorem setQuery_returns_unless_null_options (href : String) (old : Obj)
    (query : Option Obj) (params : ParamsArg) (h : params ≠ .null) :
    (∃ url, setQuery href old query params = some url) ∧
    setQuery href old none params = setQuery href old (some []) params := by
  constructor
  · cases params with
    | omitted => exact ⟨_, setQueryWith_eq href old query _ _ _⟩
    | null => exact absurd rfl h
    | object p => exact ⟨_, setQueryWith_eq href old query _ _ _⟩
  · rfl

/-- C13: the call `setQuery({ a: '1' }, null)` throws: the options argument is
destructured in the parameter list, whose default `= {}` replaces `undefined`
only; the same call with the options left out, or with the empty options
object, writes `?a=1`. -/
theorem null_options_throw :
    setQuery "http://localhost/" [] (some [("a", .str "1")]) .null = none ∧
    setQuery "http://localhost/" [] (some [("a", .str "1")]) .omitted = some "?a=1" ∧
    setQuery "http://localhost/" [] (some [("a", .str "1")]) (.object ⟨none, none, none⟩)
      = some "?a=1" := by
  decide

/-- C14: called without options on an address whose query is `other=1`,
`setQuery({ field: 'test' })` writes `?field=test&other=1`: the omitted
`isSaveOld` is taken as true (line 33) and the old query is saved, where the
documented default false would write `?field=test`. -/
theorem omitted_options_save_old_query :
    setQuery "http://localhost/?other=1" [("other", .str "1")] (some [("field", .str "test")])
        .omitted = some "?field=test&other=1" ∧
    setQuery "http://localhost/?other=1" [("other", .str "1")] (some [("field", .str "test")])
        (.object ⟨some false, none, none⟩) = some "?field=test" ∧
    setQuery "http://localhost/?other=1" [("other", .str "1")] (some [("field", .str "test")])
        .omitted =
      setQuery "http://localhost/?other=1" [("other", .str "1")]
        (some [("field", .str "test")]) (.object ⟨some true, some true, some false⟩) := by
  decide

/-! ## Falsy elements of an array -/

theorem toDigitsCore_ne_nil (b : Nat) (fuel n : Nat) (ds : List Char)
    (h : ds ≠ [] ∨ 0 < fuel) : Nat.toDigitsCore b fuel n ds ≠ [] := by
  induction fuel generalizing n ds with
  | zero =>
    rcases h with h | h
    · simpa [Nat.toDigitsCore] using h
    · exact absurd h (by decide)
  | succ f ih =>
    unfold Nat.toDigitsCore
    simp only
    split
    · simp
    · exact ih _ _ (Or.inl (by simp))

theorem toStr_num_ne_empty (n : Int) : toStr (.num n) ≠ "" := by
  have hnat : ∀ m : Nat, toString m ≠ "" := by
    intro m h
    have hd := congrArg String.data h
    have : (toString m).data = Nat.toDigits 10 m := rfl
    rw [this] at hd
    exact toDigitsCore_ne_nil 10 (m + 1) m [] (Or.inr (Nat.succ_pos m)) hd
  rw [toStr]
  cases n with
  | ofNat m => exact hnat m
  | negSucc m =>
    intro h
    have hd := congrArg String.data h
    have : (toString (Int.negSucc m)) = "-" ++ toString (Nat.succ m) := rfl
    rw [this] at hd
    simp at hd

theorem toStr_leaf_eq_empty (leaf : JSVal) (hleaf : isArray leaf = false) :
    toStr leaf = "" ↔ leaf = .str "" := by
  cases leaf with
  | undefined => simp [toStr]
  | null => simp [toStr]
  | bool b => cases b <;> simp [toStr]
  | num n =>
    constructor
    · intro h
      exact absurd h (toStr_num_ne_empty n)
    · intro h
      exact absurd h (by simp)
  | str s => simp [toStr]
  | arr xs => simp [isArray] at hleaf

theorem filter_pairs_of_strings (key : String) (l : List String) (hk : key ≠ "") :
    (((l.map JSVal.str).map fun arrayValue => fieldText false key arrayValue).filter
        fun queryItem => queryItem != "") =
      (l.filter fun s => s != "").map fun s =>
        encodeURIComponent key ++ "=" ++ encodeURIComponent s := by
  induction l with
  | nil => rfl
  | cons x xs ih =>
    have hkb : (key != "") = true := by simpa using hk
    rw [List.map_cons, List.map_cons]
    by_cases hx : x = ""
    · have hf : fieldText false key (.str x) = "" := by simp [fieldText, truthy, hx]
      rw [hf, List.filter_cons_of_neg (by simp), List.filter_cons_of_neg (by simp [hx]), ih]
    · have hf : fieldText false key (.str x) = pairText key (.str x) := by
        simp [fieldText, truthy, hkb, hx]
      rw [hf, List.filter_cons_of_pos (by simpa using pairText_ne_empty key (.str x)),
        List.filter_cons_of_pos (by simpa using hx), List.map_cons, ih]
      rfl

/-- C15 (amended): with `isSaveEmptyFields` false, for every array-valued input
field with a non-empty key other than `&`, the pairs emitted are one per
distinct non-empty string form of the flattened elements, in order of first
occurrence; the only element whose string form is empty is the empty string, so
no pair is emitted for it, and every other element, the number zero included
(its string form is `0`), has its pair. -/
theorem array_drops_only_empty_strings (q : Obj) (key : String) (xs : List JSVal)
    (hq : IsObject q) (hmem : (key, JSVal.arr xs) ∈ q) (hk : key ≠ "") (hamp : key ≠ "&") :
    queryItem false (localQuery (some q)) key =
      jsJoin "&" (((firstOccurrences ((flattenDeep xs).map toStr)).filter
        fun s => s != "").map fun s =>
          encodeURIComponent key ++ "=" ++ encodeURIComponent s) ∧
    (∀ leaf ∈ flattenDeep xs, toStr leaf = "" ↔ leaf = .str "") ∧
    (∀ leaf ∈ flattenDeep xs, leaf ≠ .str "" →
      toStr leaf ∈ (firstOccurrences ((flattenDeep xs).map toStr)).filter fun s => s != "") ∧
    toStr (.num 0) = "0" := by
  have hleaf : ∀ leaf ∈ flattenDeep xs, toStr leaf = "" ↔ leaf = .str "" := fun leaf hl =>
    toStr_leaf_eq_empty leaf (flattenDeep_leaves xs leaf hl)
  refine ⟨?_, hleaf, ?_, rfl⟩
  · have hlocal := localQuery_eq_map q hq
    have hnd : (keys (localQuery (some q))).Nodup := (localQuery_isObject (some q)).nodup_keys
    have hin : (key, normalizeValue (.arr xs)) ∈ localQuery (some q) := by
      rw [hlocal]
      exact List.mem_map.2 ⟨(key, .arr xs), hmem, rfl⟩
    have hget := getProp_of_mem _ _ hnd hin
    simp only at hget
    have hampb : (key == "&") = false := by simpa using hamp
    rw [queryItem_eq_itemText, hget, normalizeValue_eq_spec, specNormalized]
    simp only [itemText, hampb, Bool.false_eq_true, if_false]
    rw [filter_pairs_of_strings key _ hk]
  · intro leaf hl hne
    rw [List.mem_filter, mem_firstOccurrences]
    refine ⟨List.mem_map.2 ⟨leaf, hl, rfl⟩, ?_⟩
    have : toStr leaf ≠ "" := fun e => hne ((hleaf leaf hl).1 e)
    simpa using this

theorem array_drops_only_empty_strings_witness :
    (IsObject [("test", .arr [.num 0, .str "", .arr [.str "a", .num 0]])] ∧
      (("test", JSVal.arr [.num 0, .str "", .arr [.str "a", .num 0]]) ∈
        ([("test", .arr [.num 0, .str "", .arr [.str "a", .num 0]])] : Obj)) ∧
      "test" ≠ "" ∧ "test" ≠ "&") ∧
    queryItem false
      (localQuery (some [("test", .arr [.num 0, .str "", .arr [.str "a", .num 0]])])) "test"
      = "test=0&test=a" :=
  ⟨⟨by decide, List.mem_singleton_self _, by decide, by decide⟩,
    (array_drops_only_empty_strings
      [("test", .arr [.num 0, .str "", .arr [.str "a", .num 0]])] "test"
      [.num 0, .str "", .arr [.str "a", .num 0]] (by decide) (List.mem_singleton_self _)
      (by decide) (by decide)).1.trans (by decide)⟩

/-- C15 (counterexample): for the input `{ test: [0, '', 'a'] }` with
`isSaveEmptyFields` false the written string is `?test=0&test=a`: the number
zero is falsy, yet its pair `test=0` is emitted. -/
theorem zero_in_array_keeps_its_pair :
    truthy (.num 0) = false ∧
    setQueryWith "http://localhost/" [] (some [("test", .arr [.num 0, .str "", .str "a"])])
      false true false = some "?test=0&test=a" := by
  decide

/-! ## The ampersand key -/

theorem isObject_remove_middle (before after : Obj) (p : String × JSVal)
    (h : IsObject (before ++ p :: after)) : IsObject (before ++ after) := by
  unfold IsObject at h ⊢
  exact h.sublist (List.Sublist.append_left (List.sublist_cons_self p after) before)

/-- C16: for either setting of `isSaveEmptyFields`, an entry of the merged
query whose key is exactly `&` contributes no text, and the joined string, like
the list of texts it joins, is the one of the merged query without that
entry. -/
theorem ampersand_key_contributes_nothing (before after : Obj) (value : JSVal)
    (isSaveEmptyFields : Bool) (hobj : IsObject (before ++ ("&", value) :: after)) :
    queryItem isSaveEmptyFields (before ++ ("&", value) :: after) "&" = "" ∧
    survivingItems isSaveEmptyFields (before ++ ("&", value) :: after) =
      survivingItems isSaveEmptyFields (before ++ after) ∧
    newQueryString isSaveEmptyFields (before ++ ("&", value) :: after) =
      newQueryString isSaveEmptyFields (before ++ after) := by
  have hitems : survivingItems isSaveEmptyFields (before ++ ("&", value) :: after) =
      survivingItems isSaveEmptyFields (before ++ after) := by
    have hitem : itemText isSaveEmptyFields "&" value = "" := by simp [itemText]
    have hcons : survivingItems isSaveEmptyFields (("&", value) :: after) =
        survivingItems isSaveEmptyFields after := by
      unfold survivingItems
      rw [List.map_cons, hitem, List.filter_cons_of_neg (by simp)]
    rw [survivingItems_append, survivingItems_append, hcons]
  refine ⟨by simp [queryItem], hitems, ?_⟩
  rw [newQueryString_eq_survivingItems _ _ hobj.nodup_keys,
    newQueryString_eq_survivingItems _ _ (isObject_remove_middle before after _ hobj).nodup_keys,
    hitems]

theorem ampersand_key_contributes_nothing_witness :
    IsObject ([("a", .str "1")] ++ ("&", .str "x") :: [("b", .arr [.str "2", .str "3"])]) ∧
    (queryItem true ([("a", .str "1")] ++ ("&", .str "x") ::
        [("b", .arr [.str "2", .str "3"])]) "&" = "" ∧
      survivingItems true ([("a", .str "1")] ++ ("&", .str "x") ::
          [("b", .arr [.str "2", .str "3"])]) =
        survivingItems true ([("a", .str "1")] ++ [("b", .arr [.str "2", .str "3"])]) ∧
      newQueryString true ([("a", .str "1")] ++ ("&", .str "x") ::
          [("b", .arr [.str "2", .str "3"])]) =
        newQueryString true ([("a", .str "1")] ++ [("b", .arr [.str "2", .str "3"])])) ∧
    newQueryString true ([("a", .str "1")] ++ ("&", .str "x") ::
        [("b", .arr [.str "2", .str "3"])]) = "a=1&b=2&b=3" :=
  ⟨by decide,
    ampersand_key_contributes_nothing [("a", .str "1")] [("b", .arr [.str "2", .str "3"])]
      (.str "x") true (by decide),
    by decide⟩

/-! ## The combine branch taken alone -/

theorem combineValue_scalars (current value : JSVal) (hc : isArray current = false)
    (hv : isArray value = false) :
    combineValue current value =
      some (if strictEq current value then value else .arr [current, value]) := by
  simp [combineValue, hc, hv]

theorem combineValue_arrays (xs ys : List JSVal) :
    combineValue (.arr xs) (.arr ys) = some (.arr (uniq (ys ++ xs))) := by
  simp [combineValue, isArray, spread]

/-- C17 (amended): in the merger's fold step, when the entry's key is already in
the accumulator and is not a key of the old query, the step stores under that
key: the entry's value when it and the accumulator's value are identical
scalars; the two-element array of the accumulator's value and the entry's value
when they are different scalars; and, when both are arrays, the deduplicated
concatenation of the entry's elements followed by the accumulator's elements. -/
theorem combine_step_value (old acc : Obj) (key : String) (value : JSVal)
    (hacc : hasOwn acc key = true) (hold : hasOwn old key = false) :
    (isArray (getProp acc key) = false → isArray value = false →
      mergeStep old acc (key, value) =
        some (setProp acc key
          (if strictEq (getProp acc key) value then value
           else .arr [getProp acc key, value]))) ∧
    (∀ xs ys, getProp acc key = .arr xs → value = .arr ys →
      mergeStep old acc (key, value) = some (setProp acc key (.arr (uniq (ys ++ xs))))) := by
  have hstep : mergeStep old acc (key, value) =
      (combineValue (getProp acc key) value).bind fun newValue =>
        some (setProp acc key newValue) := by
    simp [mergeStep, hacc, hold]
  constructor
  · intro hc hv
    rw [hstep, combineValue_scalars _ _ hc hv]
    rfl
  · intro xs ys hxs hys
    rw [hstep, hxs, hys, combineValue_arrays]
    rfl

theorem combine_step_value_witness :
    (hasOwn [("k", .str "x")] "k" = true ∧ hasOwn [("other", .str "1")] "k" = false) ∧
    ((isArray (getProp [("k", .str "x")] "k") = false → isArray (.str "y") = false →
        mergeStep [("other", .str "1")] [("k", .str "x")] ("k", .str "y") =
          some (setProp [("k", .str "x")] "k"
            (if strictEq (getProp [("k", .str "x")] "k") (.str "y") then .str "y"
             else .arr [getProp [("k", .str "x")] "k", .str "y"]))) ∧
      (∀ xs ys, getProp [("k", .str "x")] "k" = .arr xs → JSVal.str "y" = .arr ys →
        mergeStep [("other", .str "1")] [("k", .str "x")] ("k", .str "y") =
          some (setProp [("k", .str "x")] "k" (.arr (uniq (ys ++ xs)))))) ∧
    mergeStep [("other", .str "1")] [("k", .str "x")] ("k", .str "y")
      = some [("k", .arr [.str "x", .str "y"])] ∧
    mergeStep [("other", .str "1")] [("k", .str "x")] ("k", .str "x")
      = some [("k", .str "x")] ∧
    mergeStep [("other", .str "1")] [("k", .arr [.str "a", .str "b"])]
        ("k", .arr [.str "b", .str "c"])
      = some [("k", .arr [.str "b", .str "c", .str "a"])] :=
  ⟨⟨rfl, rfl⟩,
    combine_step_value [("other", .str "1")] [("k", .str "x")] "k" (.str "y") rfl rfl,
    rfl, rfl, rfl⟩

/-- C17 (counterexample): in the fold step, with the key `k` in the accumulator
and not in the old query, combining the accumulator's array `['a']` with the
scalar entry `'bc'` stores `['a', 'b', 'c']`, not `['a', 'bc']`: the scalar is
spread into its characters; combining `['a']` with the number `1` throws; and
combining `['a']` with the array `['b']` stores `['b', 'a']`, the entry's element
first. -/
theorem combine_spreads_scalar_entry :
    (hasOwn [("k", .arr [.str "a"])] "k" = true ∧ hasOwn [("other", .str "1")] "k" = false) ∧
    (mergeStep [("other", .str "1")] [("k", .arr [.str "a"])] ("k", .str "bc")
        = some [("k", .arr [.str "a", .str "b", .str "c"])] ∧
      mergeStep [("other", .str "1")] [("k", .arr [.str "a"])] ("k", .str "bc")
        ≠ some [("k", .arr [.str "a", .str "bc"])]) ∧
    mergeStep [("other", .str "1")] [("k", .arr [.str "a"])] ("k", .num 1) = none ∧
    (mergeStep [("other", .str "1")] [("k", .arr [.str "a"])] ("k", .arr [.str "b"])
        = some [("k", .arr [.str "b", .str "a"])] ∧
      mergeStep [("other", .str "1")] [("k", .arr [.str "a"])] ("k", .arr [.str "b"])
        ≠ some [("k", .arr [.str "a", .str "b"])]) := by
  have h1 : mergeStep [("other", .str "1")] [("k", .arr [.str "a"])] ("k", .str "bc")
      = some [("k", .arr [.str "a", .str "b", .str "c"])] := rfl
  have h2 : mergeStep [("other", .str "1")] [("k", .arr [.str "a"])] ("k", .arr [.str "b"])
      = some [("k", .arr [.str "b", .str "a"])] := rfl
  refine ⟨⟨rfl, rfl⟩, ⟨h1, ?_⟩, rfl, ⟨h2, ?_⟩⟩
  · rw [h1]
    intro he
    simp at he
  · rw [h2]
    intro he
    simp at he

/-! ## Array values of the normalized and the merged query -/

theorem mem_foldl_normalize (q acc : Obj) (p : String × JSVal)
    (h : p ∈ q.foldl (fun acc field => setProp acc field.1 (normalizeValue field.2)) acc) :
    p ∈ acc ∨ ∃ v, p.2 = normalizeValue v := by
  induction q generalizing acc with
  | nil => exact Or.inl h
  | cons x rest ih =>
    rcases ih _ h with h2 | h2
    · rcases mem_setProp _ _ _ _ h2 with h3 | h3
      · exact Or.inr ⟨x.2, by rw [h3]⟩
      · exact Or.inl h3
    · exact Or.inr h2

theorem mem_localQuery (query : Option Obj) (p : String × JSVal) (h : p ∈ localQuery query) :
    ∃ v, p.2 = normalizeValue v := by
  cases query with
  | none => simp [localQuery] at h
  | some q =>
    rcases mem_foldl_normalize q [] p h with h2 | h2
    · exact absurd h2 (List.not_mem_nil p)
    · exact h2

theorem normalizeValue_arr (v : JSVal) (xs : List JSVal) (h : normalizeValue v = .arr xs) :
    ∃ ys, v = .arr ys ∧ xs = (firstOccurrences ((flattenDeep ys).map toStr)).map JSVal.str := by
  rw [normalizeValue_eq_spec] at h
  cases v with
  | arr ys =>
    simp only [specNormalized, JSVal.arr.injEq] at h
    exact ⟨ys, rfl, h.symm⟩
  | undefined => simp [specNormalized] at h
  | null => simp [specNormalized] at h
  | bool b => simp [specNormalized] at h
  | num n => simp [specNormalized] at h
  | str s => simp [specNormalized] at h

theorem mem_foldl_absorbOld (l acc : Obj) (p : String × JSVal)
    (h : p ∈ l.foldl absorbOld acc) : p ∈ acc ∨ p ∈ l := by
  induction l generalizing acc with
  | nil => exact Or.inl h
  | cons x rest ih =>
    rcases ih _ h with h2 | h2
    · unfold absorbOld at h2
      split at h2
      · exact Or.inl h2
      · rcases mem_setProp _ _ _ _ h2 with h3 | h3
        · exact Or.inr (h3 ▸ List.mem_cons_self _ _)
        · exact Or.inl h3
    · exact Or.inr (List.mem_cons_of_mem _ h2)

theorem mem_mergedQuery (isSaveOld : Bool) (old localQ : Obj) (p : String × JSVal)
    (h : p ∈ mergedQuery isSaveOld old localQ) : p ∈ localQ ∨ p ∈ old := by
  unfold mergedQuery at h
  split at h
  · exact mem_foldl_absorbOld old localQ p h
  · exact Or.inl h

theorem firstOccurrences_eq_nil (l : List String) : firstOccurrences l = [] ↔ l = [] := by
  constructor
  · intro h
    by_contra hne
    exact firstOccurrences_ne_nil l hne h
  · intro h
    rw [h]
    rfl

/-- C18 (amended): for every input query, every array value of the normalized
input holds strings only and contains no duplicate element, and so does every
array value of the merged query when the array values of the old query contain
no duplicate element; the normalized value of an array-valued input field is
the empty array exactly when the input array has no leaf once flattened. -/
theorem array_values_have_no_duplicates (query : Option Obj) (old : Obj) (isSaveOld : Bool)
    (hold : ∀ p ∈ old, ∀ xs, p.2 = JSVal.arr xs → xs.Nodup) :
    (∀ p ∈ localQuery query, ∀ xs, p.2 = JSVal.arr xs →
      xs.Nodup ∧ ∀ x ∈ xs, ∃ s, x = JSVal.str s) ∧
    (∃ merged, newQueryObject isSaveOld old (localQuery query) = some merged ∧
      ∀ p ∈ merged, ∀ xs, p.2 = JSVal.arr xs → xs.Nodup) ∧
    (∀ ys, normalizeValue (.arr ys) = .arr [] ↔ flattenDeep ys = []) := by
  have hlocal : ∀ p ∈ localQuery query, ∀ xs, p.2 = JSVal.arr xs →
      xs.Nodup ∧ ∀ x ∈ xs, ∃ s, x = JSVal.str s := by
    intro p hp xs hxs
    obtain ⟨v, hv⟩ := mem_localQuery query p hp
    rw [hxs] at hv
    obtain ⟨ys, _, hys⟩ := normalizeValue_arr v xs hv.symm
    rw [hys]
    constructor
    · apply List.Nodup.map _ (nodup_firstOccurrences _)
      intro a b hab
      exact JSVal.str.inj hab
    · intro x hx
      obtain ⟨s, _, hs⟩ := List.mem_map.1 hx
      exact ⟨s, hs.symm⟩
  refine ⟨hlocal, ⟨mergedQuery isSaveOld old (localQuery query),
    newQueryObject_eq isSaveOld old _ (localQuery_isObject query), ?_⟩, ?_⟩
  · intro p hp xs hxs
    rcases mem_mergedQuery isSaveOld old _ p hp with h | h
    · exact (hlocal p h xs hxs).1
    · exact hold p h xs hxs
  · intro ys
    rw [normalizeValue_eq_spec, specNormalized]
    simp only [JSVal.arr.injEq, List.map_eq_nil_iff]
    rw [firstOccurrences_eq_nil, List.map_eq_nil_iff]

theorem array_values_have_no_duplicates_witness :
    (∀ p ∈ ([("o", .arr [.str "1", .str "2"])] : Obj), ∀ xs, p.2 = JSVal.arr xs → xs.Nodup) ∧
    ((∀ p ∈ localQuery (some [("a", .arr [.num 1, .str "1", .arr []])]), ∀ xs,
        p.2 = JSVal.arr xs → xs.Nodup ∧ ∀ x ∈ xs, ∃ s, x = JSVal.str s) ∧
      (∃ merged, newQueryObject true [("o", .arr [.str "1", .str "2"])]
          (localQuery (some [("a", .arr [.num 1, .str "1", .arr []])])) = some merged ∧
        ∀ p ∈ merged, ∀ xs, p.2 = JSVal.arr xs → xs.Nodup) ∧
      (∀ ys, normalizeValue (.arr ys) = .arr [] ↔ flattenDeep ys = [])) :=
  ⟨by
      intro p hp xs hxs
      rw [List.mem_singleton] at hp
      rw [hp] at hxs
      simp only [JSVal.arr.injEq] at hxs
      rw [← hxs]
      simp,
    array_values_have_no_duplicates (some [("a", .arr [.num 1, .str "1", .arr []])])
      [("o", .arr [.str "1", .str "2"])] true (by
        intro p hp xs hxs
        rw [List.mem_singleton] at hp
        rw [hp] at hxs
        simp only [JSVal.arr.injEq] at hxs
        rw [← hxs]
        simp)⟩

/-- C18 (counterexample): the inputs `{ test: [] }` and `{ test: [[]] }` are
normalized to `{ test: [] }`: the array value is empty. -/
theorem empty_array_stays_empty :
    localQuery (some [("test", .arr [])]) = [("test", .arr [])] ∧
    localQuery (some [("test", .arr [.arr []])]) = [("test", .arr [])] ∧
    newQueryObject true [("o", .str "1")] (localQuery (some [("test", .arr [])]))
      = some [("test", .arr []), ("o", .str "1")] :=
  ⟨rfl, rfl, rfl⟩

/-! ## Shape of the joined query string -/

theorem fieldText_cases (b : Bool) (key : String) (value : JSVal) :
    fieldText b key value = "" ∨ fieldText b key value = pairText key value := by
  unfold fieldText
  split
  · split
    · exact Or.inr rfl
    · exact Or.inl rfl
  · split
    · exact Or.inr rfl
    · exact Or.inl rfl

theorem mem_pairsOf (b : Bool) (key : String) (value : JSVal) (s : String)
    (h : s ∈ pairsOf b key value) : ∃ v, s = pairText key v := by
  have hfield : ∀ v, s = fieldText b key v → (s != "") = true → ∃ w, s = pairText key w := by
    intro v hs hne
    rcases fieldText_cases b key v with h1 | h1
    · rw [hs, h1] at hne
      simp at hne
    · exact ⟨v, hs.trans h1⟩
  unfold pairsOf at h
  split at h
  · exact absurd h (List.not_mem_nil s)
  · cases value with
    | arr xs =>
      simp only at h
      obtain ⟨hm, hne⟩ := List.mem_filter.1 h
      obtain ⟨v, _, hv⟩ := List.mem_map.1 hm
      exact hfield v hv.symm hne
    | undefined =>
      obtain ⟨hm, hne⟩ := List.mem_filter.1 h
      exact hfield _ (List.mem_singleton.1 hm) hne
    | null =>
      obtain ⟨hm, hne⟩ := List.mem_filter.1 h
      exact hfield _ (List.mem_singleton.1 hm) hne
    | bool x =>
      obtain ⟨hm, hne⟩ := List.mem_filter.1 h
      exact hfield _ (List.mem_singleton.1 hm) hne
    | num n =>
      obtain ⟨hm, hne⟩ := List.mem_filter.1 h
      exact hfield _ (List.mem_singleton.1 hm) hne
    | str x =>
      obtain ⟨hm, hne⟩ := List.mem_filter.1 h
      exact hfield _ (List.mem_singleton.1 hm) hne

theorem jsJoin_filter_singleton (sep s : String) :
    jsJoin sep ([s].filter fun t => t != "") = s := by
  by_cases h : s = ""
  · subst h
    rfl
  · rw [List.filter_cons_of_pos (by simpa using h)]
    rfl

theorem itemText_eq_jsJoin (b : Bool) (key : String) (value : JSVal) :
    itemText b key value = jsJoin "&" (pairsOf b key value) := by
  unfold itemText pairsOf
  split
  · rfl
  · cases value with
    | arr xs => rfl
    | undefined => exact (jsJoin_filter_singleton _ _).symm
    | null => exact (jsJoin_filter_singleton _ _).symm
    | bool x => exact (jsJoin_filter_singleton _ _).symm
    | num n => exact (jsJoin_filter_singleton _ _).symm
    | str x => exact (jsJoin_filter_singleton _ _).symm

theorem jsJoin_cons_cons (sep a b : String) (rest : List String) :
    jsJoin sep (a :: b :: rest) = a ++ sep ++ jsJoin sep (b :: rest) := rfl

theorem jsJoin_append (sep : String) (l1 l2 : List String) (h1 : l1 ≠ []) (h2 : l2 ≠ []) :
    jsJoin sep (l1 ++ l2) = jsJoin sep l1 ++ sep ++ jsJoin sep l2 := by
  induction l1 with
  | nil => exact absurd rfl h1
  | cons a rest ih =>
    cases rest with
    | nil =>
      cases l2 with
      | nil => exact absurd rfl h2
      | cons b r => rfl
    | cons a2 rest2 =>
      rw [List.cons_append, List.cons_append, jsJoin_cons_cons, ← List.cons_append,
        ih (by simp), jsJoin_cons_cons]
      simp [String.append_assoc]

theorem jsJoin_eq_empty (sep : String) (l : List String) (hne : ∀ s ∈ l, s ≠ "")
    (h : jsJoin sep l = "") : l = [] := by
  cases l with
  | nil => rfl
  | cons a rest => exact absurd h (jsJoin_ne_empty sep a rest (hne a (List.mem_cons_self _ _)))

theorem jsJoin_flatten (sep : String) (ls : List (List String))
    (hne : ∀ l ∈ ls, ∀ s ∈ l, s ≠ "") :
    jsJoin sep ((ls.map (jsJoin sep)).filter fun t => t != "") = jsJoin sep ls.flatten := by
  induction ls with
  | nil => rfl
  | cons l rest ih =>
    have hrest := ih fun l2 hl2 => hne l2 (List.mem_cons_of_mem _ hl2)
    have hl := hne l (List.mem_cons_self _ _)
    have hflat : ∀ s ∈ rest.flatten, s ≠ "" := by
      intro s hs
      obtain ⟨l2, hl2, hs2⟩ := List.mem_flatten.1 hs
      exact hne l2 (List.mem_cons_of_mem _ hl2) s hs2
    have hitems : ∀ s ∈ (rest.map (jsJoin sep)).filter (fun t => t != ""), s ≠ "" := by
      intro s hs
      simpa using (List.mem_filter.1 hs).2
    rw [List.map_cons, List.flatten_cons]
    cases l with
    | nil =>
      have : jsJoin sep [] = "" := rfl
      rw [this, List.filter_cons_of_neg (by simp), List.nil_append]
      exact hrest
    | cons a l2 =>
      have hjoin : jsJoin sep (a :: l2) ≠ "" :=
        jsJoin_ne_empty sep a l2 (hl a (List.mem_cons_self _ _))
      rw [List.filter_cons_of_pos (by simpa using hjoin)]
      by_cases hy : rest.flatten = []
      · rw [hy] at hrest
        have hx := jsJoin_eq_empty sep _ hitems hrest
        rw [hx, hy, List.append_nil]
        rfl
      · have hx : (rest.map (jsJoin sep)).filter (fun t => t != "") ≠ [] := by
          intro hx
          rw [hx] at hrest
          exact hy (jsJoin_eq_empty sep _ hflat hrest.symm)
        have h1 := jsJoin_append sep [jsJoin sep (a :: l2)] _ (by simp) hx
        rw [List.singleton_append] at h1
        rw [h1, jsJoin_append sep (a :: l2) _ (by simp) hy, hrest]
        rfl

theorem mem_survivingPairs (b : Bool) (o : Obj) (s : String) (h : s ∈ survivingPairs b o) :
    ∃ key v, s = pairText key v := by
  unfold survivingPairs at h
  obtain ⟨l, hl, hs⟩ := List.mem_flatten.1 h
  obtain ⟨p, _, hp⟩ := List.mem_map.1 hl
  rw [← hp] at hs
  obtain ⟨v, hv⟩ := mem_pairsOf b p.1 p.2 s hs
  exact ⟨p.1, v, hv⟩

theorem newQueryString_eq_survivingPairs (b : Bool) (o : Obj) (hnd : (keys o).Nodup) :
    newQueryString b o = jsJoin "&" (survivingPairs b o) := by
  rw [newQueryString_eq_survivingItems b o hnd]
  unfold survivingItems survivingPairs
  have hmap : (o.map fun p => itemText b p.1 p.2) =
      (o.map fun p => pairsOf b p.1 p.2).map (jsJoin "&") := by
    rw [List.map_map]
    apply List.map_congr_left
    intro p _
    exact itemText_eq_jsJoin b p.1 p.2
  rw [hmap]
  apply jsJoin_flatten
  intro l hl s hs
  obtain ⟨p, _, hp⟩ := List.mem_map.1 hl
  rw [← hp] at hs
  obtain ⟨v, hv⟩ := mem_pairsOf b p.1 p.2 s hs
  rw [hv]
  exact pairText_ne_empty p.1 v

theorem encodeURIComponent_no_separator (s : String) (c : Char)
    (h : c ∈ (encodeURIComponent s).data) : c ≠ '=' ∧ c ≠ '&' ∧ c ≠ '#' ∧ c ≠ '?' := by
  rcases encodeURIComponent_chars s c h with h1 | h1
  · refine ⟨?_, ?_, ?_, ?_⟩ <;> intro e <;> rw [e] at h1 <;> exact absurd h1 (by decide)
  · rw [h1]
    decide

theorem pairText_data (key : String) (v : JSVal) :
    (pairText key v).data =
      (encodeURIComponent key).data ++ '=' :: (encodeURIComponent (toStr v)).data := by
  simp only [pairText, String.data_append, List.append_assoc]
  rfl

theorem pairText_count_eq (key : String) (v : JSVal) :
    (pairText key v).data.count '=' = 1 := by
  rw [pairText_data, List.count_append, List.count_cons_self]
  have h1 : (encodeURIComponent key).data.count '=' = 0 :=
    List.count_eq_zero.2 fun h => (encodeURIComponent_no_separator _ _ h).1 rfl
  have h2 : (encodeURIComponent (toStr v)).data.count '=' = 0 :=
    List.count_eq_zero.2 fun h => (encodeURIComponent_no_separator _ _ h).1 rfl
  rw [h1, h2]

theorem pairText_no_amp (key : String) (v : JSVal) : '&' ∉ (pairText key v).data := by
  rw [pairText_data]
  intro h
  rcases List.mem_append.1 h with h | h
  · exact (encodeURIComponent_no_separator _ _ h).2.1 rfl
  · rcases List.mem_cons.1 h with h | h
    · exact absurd h (by decide)
    · exact (encodeURIComponent_no_separator _ _ h).2.1 rfl

theorem splitChars_no_sep (sep : Char) (a : List Char) (h : sep ∉ a) :
    splitChars sep a = [a] := by
  induction a with
  | nil => rfl
  | cons c rest ih =>
    have hc : ¬ c = sep := fun e => h (e ▸ List.mem_cons_self _ _)
    rw [splitChars, if_neg hc, ih fun hm => h (List.mem_cons_of_mem _ hm)]

theorem splitChars_append_sep (sep : Char) (a rest : List Char) (h : sep ∉ a) :
    splitChars sep (a ++ sep :: rest) = a :: splitChars sep rest := by
  induction a with
  | nil =>
    rw [List.nil_append, splitChars, if_pos rfl]
  | cons c a2 ih =>
    have hc : ¬ c = sep := fun e => h (e ▸ List.mem_cons_self _ _)
    rw [List.cons_append, splitChars, if_neg hc, ih fun hm => h (List.mem_cons_of_mem _ hm)]

theorem amp_data : ("&" : String).data = ['&'] := rfl

theorem splitChars_jsJoin (l : List String) (hl : l ≠ []) (hamp : ∀ s ∈ l, '&' ∉ s.data) :
    splitChars '&' (jsJoin "&" l).data = l.map String.data := by
  induction l with
  | nil => exact absurd rfl hl
  | cons a rest ih =>
    cases rest with
    | nil => exact splitChars_no_sep '&' a.data (hamp a (List.mem_cons_self _ _))
    | cons b rest2 =>
      rw [jsJoin_cons_cons, String.data_append, String.data_append, amp_data,
        List.append_assoc, List.singleton_append,
        splitChars_append_sep '&' a.data _ (hamp a (List.mem_cons_self _ _)),
        ih (by simp) fun s hs => hamp s (List.mem_cons_of_mem _ hs)]
      rfl

theorem querySegments_jsJoin (l : List String) (hne : ∀ s ∈ l, s ≠ "")
    (hamp : ∀ s ∈ l, '&' ∉ s.data) : querySegments (jsJoin "&" l) = l := by
  unfold querySegments
  cases l with
  | nil => rfl
  | cons a rest =>
    rw [if_neg (jsJoin_ne_empty "&" a rest (hne a (List.mem_cons_self _ _)))]
    unfold jsSplit
    rw [splitChars_jsJoin (a :: rest) (by simp) hamp, List.map_map]
    conv_rhs => rw [← List.map_id (a :: rest)]
    apply List.map_congr_left
    intro s _
    rfl

theorem jsJoin_head (l : List String) (hne : ∀ s ∈ l, s ≠ "")
    (hamp : ∀ s ∈ l, '&' ∉ s.data) : (jsJoin "&" l).data.head? ≠ some '&' := by
  cases l with
  | nil => simp [jsJoin]
  | cons a rest =>
    have ha := hne a (List.mem_cons_self _ _)
    have hna := hamp a (List.mem_cons_self _ _)
    cases hd : a.data with
    | nil => exact absurd (String.ext (hd.trans rfl)) ha
    | cons c cs =>
      have hc : c ≠ '&' := fun e => hna (by rw [hd, e]; exact List.mem_cons_self _ _)
      cases rest with
      | nil =>
        rw [jsJoin, hd]
        simpa using hc
      | cons b rest2 =>
        rw [jsJoin_cons_cons, String.data_append, String.data_append, hd]
        simpa using hc

theorem jsJoin_getLast (l : List String) (hne : ∀ s ∈ l, s ≠ "")
    (hamp : ∀ s ∈ l, '&' ∉ s.data) : (jsJoin "&" l).data.getLast? ≠ some '&' := by
  induction l with
  | nil => simp [jsJoin]
  | cons a rest ih =>
    cases rest with
    | nil =>
      rw [jsJoin]
      intro h
      exact hamp a (List.mem_cons_self _ _) (List.mem_of_getLast?_eq_some h)
    | cons b rest2 =>
      have hrest := ih (fun s hs => hne s (List.mem_cons_of_mem _ hs))
        (fun s hs => hamp s (List.mem_cons_of_mem _ hs))
      have hnonempty : (jsJoin "&" (b :: rest2)).data ≠ [] := by
        intro h
        exact jsJoin_ne_empty "&" b rest2
          (hne b (List.mem_cons_of_mem _ (List.mem_cons_self _ _))) (String.ext (h.trans rfl))
      rw [jsJoin_cons_cons, String.data_append, List.getLast?_append_of_ne_nil _ hnonempty]
      exact hrest

theorem no_double_amp_append (x y : List Char) (hx : '&' ∉ x) (hy : y.head? ≠ some '&')
    (hyy : ¬ ['&', '&'] <:+: y) : ¬ ['&', '&'] <:+: x ++ '&' :: y := by
  induction x with
  | nil =>
    rw [List.nil_append, List.infix_cons_iff]
    rintro (h | h)
    · rw [List.cons_prefix_cons] at h
      cases y with
      | nil => simp at h
      | cons d y2 =>
        rw [List.cons_prefix_cons] at h
        exact hy (by simp [← h.2.1])
    · exact hyy h
  | cons c x2 ih =>
    rw [List.cons_append, List.infix_cons_iff]
    rintro (h | h)
    · rw [List.cons_prefix_cons] at h
      exact hx (h.1 ▸ List.mem_cons_self _ _)
    · exact ih (fun hm => hx (List.mem_cons_of_mem _ hm)) h

theorem jsJoin_no_double_amp (l : List String) (hne : ∀ s ∈ l, s ≠ "")
    (hamp : ∀ s ∈ l, '&' ∉ s.data) : ¬ ['&', '&'] <:+: (jsJoin "&" l).data := by
  induction l with
  | nil =>
    intro h
    have := List.eq_nil_of_infix_nil h
    simp at this
  | cons a rest ih =>
    cases rest with
    | nil =>
      rw [jsJoin]
      intro h
      exact hamp a (List.mem_cons_self _ _) (h.subset (List.mem_cons_self _ _))
    | cons b rest2 =>
      have hne2 : ∀ s ∈ b :: rest2, s ≠ "" := fun s hs => hne s (List.mem_cons_of_mem _ hs)
      have hamp2 : ∀ s ∈ b :: rest2, '&' ∉ s.data := fun s hs =>
        hamp s (List.mem_cons_of_mem _ hs)
      rw [jsJoin_cons_cons, String.data_append, String.data_append, amp_data,
        List.append_assoc, List.singleton_append]
      exact no_double_amp_append a.data _ (hamp a (List.mem_cons_self _ _))
        (jsJoin_head _ hne2 hamp2) (ih hne2 hamp2)

/-- C20: for every merged query and either setting of `isSaveEmptyFields`, the
joined query string is well formed: its `&`-separated segments are exactly the
surviving (key, element) pairs, in order, so there are as many segments as
surviving pairs; each segment contains exactly one `=`; the string does not
start or end with `&`, contains no `&&`, and contains no `#` and no `?`. -/
theorem query_string_well_formed (o : Obj) (isSaveEmptyFields : Bool) (ho : IsObject o) :
    querySegments (newQueryString isSaveEmptyFields o) = survivingPairs isSaveEmptyFields o ∧
    (querySegments (newQueryString isSaveEmptyFields o)).length =
      (survivingPairs isSaveEmptyFields o).length ∧
    (∀ seg ∈ querySegments (newQueryString isSaveEmptyFields o), seg.data.count '=' = 1) ∧
    (newQueryString isSaveEmptyFields o).data.head? ≠ some '&' ∧
    (newQueryString isSaveEmptyFields o).data.getLast? ≠ some '&' ∧
    ¬ ['&', '&'] <:+: (newQueryString isSaveEmptyFields o).data ∧
    '#' ∉ (newQueryString isSaveEmptyFields o).data ∧
    '?' ∉ (newQueryString isSaveEmptyFields o).data := by
  have hne : ∀ s ∈ survivingPairs isSaveEmptyFields o, s ≠ "" := by
    intro s hs
    obtain ⟨key, v, hv⟩ := mem_survivingPairs _ _ s hs
    rw [hv]
    exact pairText_ne_empty key v
  have hamp : ∀ s ∈ survivingPairs isSaveEmptyFields o, '&' ∉ s.data := by
    intro s hs
    obtain ⟨key, v, hv⟩ := mem_survivingPairs _ _ s hs
    rw [hv]
    exact pairText_no_amp key v
  have hjoin := newQueryString_eq_survivingPairs isSaveEmptyFields o ho.nodup_keys
  have hseg : querySegments (newQueryString isSaveEmptyFields o) =
      survivingPairs isSaveEmptyFields o := by
    rw [hjoin]
    exact querySegments_jsJoin _ hne hamp
  refine ⟨hseg, by rw [hseg], ?_, ?_, ?_, ?_, newQueryString_no_hash _ _, ?_⟩
  · intro seg hs
    rw [hseg] at hs
    obtain ⟨key, v, hv⟩ := mem_survivingPairs _ _ seg hs
    rw [hv]
    exact pairText_count_eq key v
  · rw [hjoin]
    exact jsJoin_head _ hne hamp
  · rw [hjoin]
    exact jsJoin_getLast _ hne hamp
  · rw [hjoin]
    exact jsJoin_no_double_amp _ hne hamp
  · intro hmem
    rcases newQueryString_chars _ _ _ hmem with h | h | h | h
    · exact absurd h (by decide)
    · exact absurd h (by decide)
    · exact absurd h (by decide)
    · exact absurd h (by decide)

theorem query_string_well_formed_witness :
    IsObject [("a&b", .str "c=d#e?f"), ("&", .str "x"), ("", .str "y"),
        ("k", .arr [.str "1", .str "", .str "&&"]), ("z", .str "")] ∧
    (querySegments (newQueryString true [("a&b", .str "c=d#e?f"), ("&", .str "x"),
        ("", .str "y"), ("k", .arr [.str "1", .str "", .str "&&"]), ("z", .str "")])
      = survivingPairs true [("a&b", .str "c=d#e?f"), ("&", .str "x"), ("", .str "y"),
        ("k", .arr [.str "1", .str "", .str "&&"]), ("z", .str "")]) ∧
    newQueryString true [("a&b", .str "c=d#e?f"), ("&", .str "x"), ("", .str "y"),
        ("k", .arr [.str "1", .str "", .str "&&"]), ("z", .str "")]
      = "a%26b=c%3Dd%23e%3Ff&k=1&k=&k=%26%26&z=" :=
  ⟨by decide,
    (query_string_well_formed [("a&b", .str "c=d#e?f"), ("&", .str "x"), ("", .str "y"),
        ("k", .arr [.str "1", .str "", .str "&&"]), ("z", .str "")] true (by decide)).1,
    by decide⟩

end SetQuery
